import Mathlib

/-! S3 listing exporter (`listing.go`): producer, listing loop, workers, record formatters.

A shallow embedding of `listing.go`.  Go strings are Lean `String`s (sequences of
characters), Go `int` and `int64` values are `Int`s, the process-wide variables `cfg` and
`files` are passed explicitly, the callbacks of the program are state-passing functions,
and the goroutines of `run` are a step relation on an explicit state.  Definitions come
first, then the lemmas and the theorems on the program.
-/

namespace Listing

/-! ## Definitions: strings, data model, listing loop, producer -/

/-- Go `trimLeftByte(s, c)`: drop the leading run of `c`. -/
def trimLeftByte (c : Char) : List Char → List Char
  | [] => []
  | x :: xs => if x = c then trimLeftByte c xs else x :: xs

/-- Go `trimRightByte(s, c)`: drop the trailing run of `c`. -/
def trimRightByte (c : Char) (s : List Char) : List Char :=
  (trimLeftByte c s.reverse).reverse

/-- Go `strings.Split(s, sep)` for a one-character separator, on the characters of `s`:
the pieces between the occurrences of `sep`; never the empty list. -/
def splitByte (c : Char) : List Char → List (List Char)
  | [] => [[]]
  | x :: xs =>
    if x = c then [] :: splitByte c xs
    else
      match splitByte c xs with
      | [] => [[x]]
      | seg :: segs => (x :: seg) :: segs

/-- Go `strings.Trim(s, cutset)` for a cutset of one ASCII character. -/
def strings.Trim (s : String) (cutset : Char) : String :=
  ⟨trimLeftByte cutset (trimRightByte cutset s.data)⟩

/-- Go `strings.Split(s, sep)` for a separator of one character. -/
def strings.Split (s : String) (sep : Char) : List String :=
  (splitByte sep s.data).map String.mk

/-- Go `time.Time`, as the civil fields in UTC that its formatting methods read
(`Date`, `Clock`, `Nanosecond`).  The timestamps of the program are either the zero
value or parsed by the SDK from the service's UTC timestamps. -/
structure Time where
  year : Int
  month : Nat
  day : Nat
  hour : Nat
  minute : Nat
  second : Nat
  nanosecond : Fin 1000000000
  deriving DecidableEq, Repr

/-- The zero value of `time.Time`: January 1, year 1, 00:00:00 UTC. -/
def Time.zero : Time :=
  { year := 1, month := 1, day := 1, hour := 0, minute := 0, second := 0, nanosecond := 0 }

/-- The `config` struct. -/
structure config where
  MaxPages : Int
  MaxKeys : Int
  AdvMaxPages : Int
  AdvMaxKeys : Int
  FileMaxPages : Int
  FileMaxKeys : Int
  Force : Bool
  Region : String
  Bucket : String
  Prefix : String
  OutputFormat : String
  OutputLocation : String
  ListAllWorkersCount : Int
  deriving DecidableEq, Repr

/-- The `ListObject` struct; `Type_` is the field `Type`.  The field `svc` (the client
handle) is carried by no computation of the program and is left out. -/
structure ListObject where
  Type_ : String
  Bucket : String
  File : String
  Size : Int
  LastModified : Time
  deriving DecidableEq, Repr

/-- The functions of the program that are stored in the `Process` field of a request. -/
inductive ProcessName where
  | outputObject
  | appendObject
  deriving DecidableEq, Repr

/-- The `ListAllObjectsRequest` struct. -/
structure ListAllObjectsRequest where
  Region : String
  Bucket : String
  Prefix : String
  Process : ProcessName
  OutputFile : String
  deriving DecidableEq, Repr

/-- A `ListObjectProcessFunc`, as a function on the state `σ` it acts on. -/
abbrev ListObjectProcessFunc (σ : Type) := ListObject → σ → σ

/-- The function `appendObject`: append to the accumulated `files`. -/
def appendObject : ListObjectProcessFunc (List ListObject) :=
  fun o files => files ++ [o]

/-- One element of `page.Contents`. -/
structure S3Object where
  Key : String
  Size : Int
  LastModified : Time
  deriving DecidableEq, Repr

/-- SDK `s3.ListObjectsOutput`: one page of a listing (`CommonPrefixes` by their `Prefix`). -/
structure ListObjectsOutput where
  Contents : List S3Object
  CommonPrefixes : List String
  deriving DecidableEq, Repr

/-- SDK `s3.ListObjectsInput`, the fields that `listObjects` sets. -/
structure ListObjectsInput where
  Bucket : String
  MaxKeys : Int
  Delimiter : Option String
  Prefix_ : Option String
  deriving DecidableEq, Repr

/-- The provider: the finite sequence of pages it delivers for a request when every page
is asked for (a listing that fails midway delivers the pages before the failure). -/
abbrev S3 := ListObjectsInput → List ListObjectsOutput

/-- SDK `ListObjectsPages`: hand the pages to `fn` one by one, requesting the next page
only when `fn` returned `true` and a next page exists. -/
def ListObjectsPages {α : Type} (fn : α → ListObjectsOutput → Bool → α × Bool) :
    List ListObjectsOutput → α → α
  | [], a => a
  | page :: rest, a =>
    let r := fn a page rest.isEmpty
    if r.2 then ListObjectsPages fn rest r.1 else r.1

/-- The local variables `pageNum`, `objectNum` of `listObjects` and the state of the
consumer. -/
structure ListState (σ : Type) where
  pageNum : Int
  objectNum : Int
  st : σ

/-- Line 341: the entry built for an element of `page.Contents`. -/
def objectEntry (bucket : String) (value : S3Object) : ListObject :=
  { Type_ := "OBJECT", Bucket := bucket, File := value.Key, Size := value.Size,
    LastModified := value.LastModified }

/-- Line 348: the entry built for an element of `page.CommonPrefixes`; size and
last-modified are left at their zero values. -/
def prefixEntry (bucket : String) (value : String) : ListObject :=
  { Type_ := "PREFIX", Bucket := bucket, File := value, Size := 0, LastModified := Time.zero }

/-- The page callback of `listObjects` (lines 336-355). -/
def pageCallback {σ : Type} (cfg : config) (bucket : String)
    (process : ListObjectProcessFunc σ) (s : ListState σ) (page : ListObjectsOutput)
    (_lastPage : Bool) : ListState σ × Bool :=
  let s1 : ListState σ := { s with pageNum := s.pageNum + 1 }
  let s2 := page.Contents.foldl
    (fun (acc : ListState σ) value =>
      { acc with objectNum := acc.objectNum + 1, st := process (objectEntry bucket value) acc.st })
    s1
  let s3 := page.CommonPrefixes.foldl
    (fun (acc : ListState σ) value =>
      { acc with objectNum := acc.objectNum + 1, st := process (prefixEntry bucket value) acc.st })
    s2
  (s3, decide (s3.pageNum < cfg.MaxPages) || decide (cfg.MaxPages = 0))

/-- The function `listObjects`; `pfx` is its parameter `prefix`. -/
def listObjects {σ : Type} (cfg : config) (bucket pfx delimiter : String) (svc : S3)
    (process : ListObjectProcessFunc σ) (st : σ) : ListState σ :=
  let params : ListObjectsInput :=
    { Bucket := bucket, MaxKeys := cfg.MaxKeys, Delimiter := none, Prefix_ := none }
  let params := if delimiter ≠ "" then { params with Delimiter := some delimiter } else params
  let params := if pfx ≠ "" then { params with Prefix_ := some pfx } else params
  ListObjectsPages (pageCallback cfg bucket process) (svc params)
    { pageNum := 0, objectNum := 0, st := st }

/-- The request that `listObjects` sends. -/
def listParams (cfg : config) (bucket pfx delimiter : String) : ListObjectsInput :=
  { Bucket := bucket, MaxKeys := cfg.MaxKeys,
    Delimiter := if delimiter = "" then none else some delimiter,
    Prefix_ := if pfx = "" then none else some pfx }

/-- The entries of one page, in the order in which the page callback hands them to the
consumer: the objects, then the common prefixes. -/
def pageEntries (bucket : String) (page : ListObjectsOutput) : List ListObject :=
  page.Contents.map (objectEntry bucket) ++ page.CommonPrefixes.map (prefixEntry bucket)

/-- Lines 173-174: the partition identifier of a key. -/
def advertiserId (file : String) : String :=
  let fileParts := strings.Split (strings.Trim file '/') '/'
  fileParts.getD (fileParts.length - 1) ""

/-- Line 176: the output file of a key. -/
def outputFile (cfg : config) (file : String) : String :=
  cfg.OutputLocation ++ "/advertiser_" ++ advertiserId file

/-- Line 185: the request built for a key. -/
def mkRequest (cfg : config) (file : String) : ListAllObjectsRequest :=
  { Region := cfg.Region, Bucket := cfg.Bucket,
    Prefix := cfg.Prefix ++ advertiserId file ++ "/",
    Process := ProcessName.outputObject, OutputFile := outputFile cfg file }

/-- Lines 168-188: the loop over `files`, returning the requests sent to the queue in the
order sent.  `targetExists p` is the outcome `!os.IsNotExist(err)` of `os.Stat(p)`. -/
def producerLoop (cfg : config) (targetExists : String → Bool) :
    List ListObject → List ListAllObjectsRequest
  | [] => []
  | file :: rest =>
    if file.Type_ ≠ "PREFIX" then producerLoop cfg targetExists rest
    else if !cfg.Force && targetExists (outputFile cfg file.File) then
      producerLoop cfg targetExists rest
    else mkRequest cfg file.File :: producerLoop cfg targetExists rest

/-- The function `ListAllObjectsProducer`: the shallow pass under the `Adv` caps, the switch
of the caps, and the loop.  Returns the configuration it leaves behind and the requests
sent. -/
def ListAllObjectsProducer (cfg : config) (svc : S3) (targetExists : String → Bool) :
    config × List ListAllObjectsRequest :=
  let cfg1 := { cfg with MaxKeys := cfg.AdvMaxKeys, MaxPages := cfg.AdvMaxPages }
  let files := (listObjects cfg1 cfg1.Bucket cfg1.Prefix "/" svc appendObject []).st
  let cfg2 := { cfg1 with MaxKeys := cfg1.FileMaxKeys, MaxPages := cfg1.FileMaxPages }
  (cfg2, producerLoop cfg2 targetExists files)

/-- The entries for which the producer sends a request. -/
def dispatched (cfg : config) (targetExists : String → Bool) (file : ListObject) : Bool :=
  decide (file.Type_ = "PREFIX") && (cfg.Force || !targetExists (outputFile cfg file.File))

/-- The partition identifier as the specification words it: strip the trailing
delimiter, take the final `/`-separated segment. -/
def specPartitionId (key : String) : String :=
  let stripped := if key.data.getLast? = some '/' then key.data.dropLast else key.data
  ⟨(splitByte '/' stripped).getLastD []⟩

/-- An example configuration. -/
def cfg0 : config :=
  { MaxPages := 0, MaxKeys := 1000, AdvMaxPages := 5, AdvMaxKeys := 5, FileMaxPages := 0,
    FileMaxKeys := 1000, Force := false, Region := "us-east-1", Bucket := "b", Prefix := "",
    OutputFormat := "csv", OutputLocation := "./target", ListAllWorkersCount := 5 }

/-- A `PREFIX` entry of bucket `b`. -/
def pfxEntry (key : String) : ListObject :=
  { Type_ := "PREFIX", Bucket := "b", File := key, Size := 0, LastModified := Time.zero }

/-- The final piece of a split. -/
def lastPiece (c : Char) (s : List Char) : List Char := (splitByte c s).getLastD []

/-- The keys that a delimiter-grouped listing under `root` groups a non-empty segment
into: `root ++ seg ++ "/"` with `seg` non-empty and free of `/`. -/
def partitionKey (root key : String) : Prop :=
  ∃ seg : String, seg.data ≠ [] ∧ '/' ∉ seg.data ∧ key = root ++ seg ++ "/"

/-- A configuration with root prefix `x/` and `Force` set (no existence check). -/
def cfgX : config := { cfg0 with Prefix := "x/", Force := true }

/-- A provider whose shallow listing under `x/` groups the keys `x//…` and `x/x/…`. -/
def svcX : S3 := fun _ => [{ Contents := [], CommonPrefixes := ["x//", "x/x/"] }]

/-- A configuration with page cap 2. -/
def cfgCap2 : config := { cfg0 with MaxPages := 2 }

/-- A provider with three pages. -/
def svc3 : S3 := fun _ =>
  [{ Contents := [], CommonPrefixes := ["a/"] }, { Contents := [], CommonPrefixes := ["b/"] },
   { Contents := [], CommonPrefixes := ["c/"] }]

/-! ## Definitions: the record formatters (`printCsv`, `printJson`, `printObject`)

The functions of `fmt`, `time`, `encoding/csv` and `encoding/json` that the formatters call
are written out as the Go standard library documents and implements them. -/

/-- Go `byte('0' + d)` for a decimal digit `d`. -/
def digitChar (d : Nat) : Char := Char.ofNat (48 + d)

/-- The digit loop shared by `strconv.FormatInt` and `time.appendInt`: the decimal digits of
`u`, least significant first.  The first argument bounds the number of iterations; `u + 1`
always suffices. -/
def digitsRev : Nat → Nat → List Char
  | 0, _ => []
  | fuel + 1, u =>
    if 10 ≤ u then digitChar (u % 10) :: digitsRev fuel (u / 10) else [digitChar u]

/-- The decimal digits of `u`, most significant first. -/
def formatUint (u : Nat) : List Char := (digitsRev (u + 1) u).reverse

/-- Go `strconv.FormatInt(x, 10)`, which `fmt.Sprint` and `json.Marshal` use for an
`int64`: a minus sign for a negative value, then the decimal digits. -/
def formatInt (x : Int) : List Char :=
  if x < 0 then '-' :: formatUint x.natAbs else formatUint x.natAbs

/-- Go `time.appendInt(b, x, width)`: a minus sign for a negative value, then the decimal
digits padded with zeros on the left to `width`. -/
def appendInt (x : Int) (width : Nat) : List Char :=
  (if x < 0 then ['-'] else []) ++
    (List.replicate (width - (formatUint x.natAbs).length) '0' ++ formatUint x.natAbs)

/-- The buffer loop of Go `time.formatNano`: `width` decimal digits of `u`, least
significant first. -/
def fixedRev : Nat → Nat → List Char
  | 0, _ => []
  | width + 1, u => digitChar (u % 10) :: fixedRev width (u / 10)

/-- Go `time.formatNano(b, nanosec, 9, true)`: nothing when the nine digits are all zero,
otherwise a point and the nine digits without their trailing zeros. -/
def formatNano (nanosec : Nat) : List Char :=
  let kept := ((fixedRev 9 nanosec).dropWhile (fun c => c = '0')).reverse
  if kept = [] then [] else '.' :: kept

/-- The date and clock part shared by the layouts `2006-01-02 15:04:05.999999999` and
`2006-01-02T15:04:05.999999999`. -/
def Time.dateTime (t : Time) (sep : Char) : List Char :=
  appendInt t.year 4 ++ '-' :: (appendInt t.month 2 ++ '-' :: (appendInt t.day 2 ++
    sep :: (appendInt t.hour 2 ++ ':' :: (appendInt t.minute 2 ++ ':' ::
      (appendInt t.second 2 ++ formatNano t.nanosecond)))))

/-- Go `Time.String()`, which `fmt.Sprint` calls: the layout
`2006-01-02 15:04:05.999999999 -0700 MST` in UTC. -/
def Time.String (t : Time) : String :=
  ⟨t.dateTime ' ' ++ " +0000 UTC".data⟩

/-- Go `Time.MarshalJSON()`: an error for a year outside `[0, 9999]`, otherwise the time
in the layout RFC3339Nano, quoted. -/
def Time.MarshalJSON (t : Time) : Option (List Char) :=
  if t.year < 0 ∨ 10000 ≤ t.year then none
  else some ('"' :: (t.dateTime 'T' ++ ['Z', '"']))

/-- Go `unicode.IsSpace`. -/
def unicode.IsSpace (r : Char) : Bool :=
  r.toNat = 0x09 || r.toNat = 0x0a || r.toNat = 0x0b || r.toNat = 0x0c || r.toNat = 0x0d ||
  r.toNat = 0x20 || r.toNat = 0x85 || r.toNat = 0xa0 || r.toNat = 0x1680 ||
  (0x2000 ≤ r.toNat && r.toNat ≤ 0x200a) || r.toNat = 0x2028 || r.toNat = 0x2029 ||
  r.toNat = 0x202f || r.toNat = 0x205f || r.toNat = 0x3000

/-- Go `(*csv.Writer).fieldNeedsQuotes` for the comma `,`. -/
def fieldNeedsQuotes (field : List Char) : Bool :=
  match field with
  | [] => false
  | r1 :: _ =>
    if field = ['\\', '.'] || field.any (fun c => c = ',') ||
        field.any (fun c => c = '"' || c = '\r' || c = '\n') then true
    else unicode.IsSpace r1

/-- The body of a quoted field of `(*csv.Writer).Write` (`UseCRLF` off): every quote is
doubled, every other character is copied. -/
def csvQuote : List Char → List Char
  | [] => []
  | c :: cs => if c = '"' then '"' :: '"' :: csvQuote cs else c :: csvQuote cs

/-- One field as `(*csv.Writer).Write` writes it. -/
def csvField (field : List Char) : List Char :=
  if fieldNeedsQuotes field then '"' :: (csvQuote field ++ ['"']) else field

/-- The fields of a record as `(*csv.Writer).Write` writes them, separated by commas. -/
def csvFields : List (List Char) → List Char
  | [] => []
  | [field] => csvField field
  | field :: rest => csvField field ++ ',' :: csvFields rest

/-- Go `(*csv.Writer).Write(record)` followed by `Flush` into an empty buffer: the fields,
then a line break. -/
def csvWrite (record : List String) : String :=
  ⟨csvFields (record.map String.data) ++ ['\n']⟩

/-- Go `fmt.Sprint` of an `int64`. -/
def sprintInt (x : Int) : String := ⟨formatInt x⟩

/-- The function `printCsv`. -/
def printCsv (object : ListObject) : String :=
  csvWrite [object.Type_, object.Bucket, object.File, sprintInt object.Size,
    object.LastModified.String]

/-- Go `hex[n]` of `encoding/json`, `hex = "0123456789abcdef"`. -/
def hexDigit (n : Nat) : Char := "0123456789abcdef".data.getD n '0'

/-- What `encoding/json` writes for one character of a string (HTML escaping on). -/
def jsonEscape (c : Char) : List Char :=
  if c.toNat < 0x80 then
    if 0x20 ≤ c.toNat ∧ c ≠ '\\' ∧ c ≠ '"' ∧ c ≠ '<' ∧ c ≠ '>' ∧ c ≠ '&' then [c]
    else if c = '\\' ∨ c = '"' then ['\\', c]
    else if c = '\x08' then ['\\', 'b']
    else if c = '\x0c' then ['\\', 'f']
    else if c = '\n' then ['\\', 'n']
    else if c = '\r' then ['\\', 'r']
    else if c = '\t' then ['\\', 't']
    else ['\\', 'u', '0', '0', hexDigit (c.toNat / 16), hexDigit (c.toNat % 16)]
  else if c.toNat = 0x2028 ∨ c.toNat = 0x2029 then
    ['\\', 'u', '2', '0', '2', hexDigit (c.toNat % 16)]
  else [c]

/-- What `utf8.DecodeRuneInString` finds at a position of a Go string: a character, or one
byte that begins no valid UTF-8 sequence. -/
inductive GoRune where
  | valid (c : Char)
  | invalid (b : UInt8)
  deriving DecidableEq, Repr

/-- What `encoding/json` writes at one position of a string: the escape of the character
there, and the six characters `\ufffd` for an invalid byte. -/
def jsonEscapeRune : GoRune → List Char
  | GoRune.valid c => jsonEscape c
  | GoRune.invalid _ => ['\\', 'u', 'f', 'f', 'f', 'd']

/-- The string encoder of `encoding/json` on a decoded Go string: quoted, every position
escaped as needed. -/
def jsonEncodeString (s : List GoRune) : List Char :=
  '"' :: (s.flatMap jsonEscapeRune ++ ['"'])

/-- The string encoder of `encoding/json` on a string that is valid UTF-8: a Lean `String`
is a Go string in which every position decodes to a character. -/
def jsonString (s : String) : List Char :=
  jsonEncodeString (s.data.map GoRune.valid)

/-- Go `json.Marshal` of a `ListObject`: the exported fields in declaration order; an error
when the time cannot be marshalled. -/
def jsonMarshal (object : ListObject) : Option (List Char) :=
  match object.LastModified.MarshalJSON with
  | none => none
  | some t =>
    some ("\x7b\"Type\":".data ++ (jsonString object.Type_ ++ (",\"Bucket\":".data ++
      (jsonString object.Bucket ++ (",\"File\":".data ++ (jsonString object.File ++
        (",\"Size\":".data ++ (formatInt object.Size ++ (",\"LastModified\":".data ++
          (t ++ ['\x7d']))))))))))

/-- The function `printJson`: the marshalled object (nothing when marshalling failed, the
error is only logged) followed by a line break. -/
def printJson (object : ListObject) : String :=
  match jsonMarshal object with
  | none => "\n"
  | some b => ⟨b ++ ['\n']⟩

/-- The function `printObject`; `none` is the `log.Fatal` of an unknown output format. -/
def printObject (cfg : config) (object : ListObject) : Option String :=
  if cfg.OutputFormat = "csv" then some (printCsv object)
  else if cfg.OutputFormat = "json" then some (printJson object)
  else none

/-- An object entry of bucket `b`. -/
def objEntry (key : String) (size : Int) (t : Time) : ListObject :=
  { Type_ := "OBJECT", Bucket := "b", File := key, Size := size, LastModified := t }

/-- January 2, 2016, 03:04:05.5 UTC. -/
def time2016 : Time :=
  { year := 2016, month := 1, day := 2, hour := 3, minute := 4, second := 5,
    nanosecond := 500000000 }

/-- January 1 of the year 10000, 00:00:00 UTC. -/
def time10000 : Time :=
  { year := 10000, month := 1, day := 1, hour := 0, minute := 0, second := 0, nanosecond := 0 }

/-! ## Definitions: files and the processing of one request -/

/-- The pages on which `ListObjectsPages` calls the page callback of `listObjects` when the
callback has already been called `pageNum` times: the first page always, the next one when
the callback returned `true`. -/
def visited (cfg : config) : Int → List ListObjectsOutput → List ListObjectsOutput
  | _, [] => []
  | pageNum, page :: rest =>
    if decide (pageNum + 1 < cfg.MaxPages) || decide (cfg.MaxPages = 0) then
      page :: visited cfg (pageNum + 1) rest
    else [page]

/-- The files of the output location: the content of every path that exists. -/
abbrev FileSystem := String → Option (List Char)

/-- An open `*os.File`: the content of the file and the offset of the handle. -/
structure File where
  name : String
  content : List Char
  offset : Nat

/-- Go `os.OpenFile(name, os.O_WRONLY | os.O_CREATE, 0666)`: `none` when the file cannot be
opened (`canOpen` is the answer of the operating system); otherwise a handle at offset 0 on
the existing content, or on an empty new file. -/
def OpenFile (canOpen : String → Bool) (fs : FileSystem) (name : String) : Option File :=
  if canOpen name then some { name := name, content := (fs name).getD [], offset := 0 }
  else none

/-- Go `f.WriteString(s)`: overwrite the content at the offset and advance the offset (the
result of the write is not inspected by the program; writes are taken to succeed).  Content
and offset are counted in characters; on a file that is new every write lands at the end,
so the content is the text written; on a file that existed before, the operating system
counts the offset in bytes. -/
def File.WriteString (f : File) (s : String) : File :=
  { f with
    content := f.content.take f.offset ++ s.data ++ f.content.drop (f.offset + s.data.length),
    offset := f.offset + s.data.length }

/-- Go `f.Close()`: the content written through the handle is the content of the file
(what a process that exits in the middle of a request leaves in the file is not kept). -/
def File.Close (f : File) (fs : FileSystem) : FileSystem :=
  fun p => if p = f.name then some f.content else fs p

/-- The closure `fileOuput` of the processing stage (lines 227-229), on the open file;
`none` is a process that has exited in `log.Fatal`. -/
def fileOuput (cfg : config) : ListObjectProcessFunc (Option File) :=
  fun o st =>
    match st with
    | none => none
    | some f =>
      match printObject cfg o with
      | none => none
      | some line => some (f.WriteString line)

/-- The body of the loop of the processing stage (lines 219-235) for one request.  `s3New`
is `s3.New` for a region; `none` is a process that has exited in `log.Fatalf` (the file
cannot be opened) or `log.Fatal` (unknown output format). -/
def processRequest (cfg : config) (s3New : String → S3) (canOpen : String → Bool)
    (fs : FileSystem) (request : ListAllObjectsRequest) : Option FileSystem :=
  match OpenFile canOpen fs request.OutputFile with
  | none => none
  | some f =>
    let f1 := f.WriteString "\n"
    match (listObjects cfg request.Bucket request.Prefix "" (s3New request.Region)
        (fileOuput cfg) (some f1)).st with
    | none => none
    | some f2 => some (f2.Close fs)

/-- The consumer calls of the deep listing of a request, in order. -/
def deepEntries (cfg : config) (s3New : String → S3) (request : ListAllObjectsRequest) :
    List ListObject :=
  (listObjects cfg request.Bucket request.Prefix "" (s3New request.Region) appendObject []).st

/-- A provider with one page holding one object. -/
def svcDeep : S3 := fun _ =>
  [{ Contents := [{ Key := "a/1", Size := 12, LastModified := time2016 }], CommonPrefixes := [] }]

/-- A provider with one page that holds nothing. -/
def svcEmpty : S3 := fun _ => [{ Contents := [], CommonPrefixes := [] }]

/-! ## Definitions: the goroutines of `run` as a step relation -/

/-- Where the intake stage of a worker (first goroutine of `Start`, lines 198-213) stands:
at the receive of `range w.RequestQueue`, at the `select` with the request it has received,
or returned (the deferred `close(processRequestChan)` has run). -/
inductive Intake where
  | receiving
  | selecting (request : ListAllObjectsRequest)
  | returned
  deriving DecidableEq, Repr

/-- Where the processing stage of a worker (second goroutine of `Start`, lines 215-239)
stands: at the receive of `range processRequestChan`, in the loop body with a request, or
returned (the deferred `w.DoneCallback()` has run). -/
inductive Processing where
  | receiving
  | working (request : ListAllObjectsRequest)
  | returned
  deriving DecidableEq, Repr

/-- A started worker: its two stages, the goroutines of `Stop` that are blocked in
`w.QuitChan <- true`, and the number of calls of its `DoneCallback` so far. -/
structure WorkerState where
  intake : Intake
  processing : Processing
  quitSenders : Nat
  doneCalls : Nat
  deriving DecidableEq, Repr

/-- A worker right after `Start`. -/
def WorkerState.start : WorkerState :=
  { intake := Intake.receiving, processing := Processing.receiving, quitSenders := 0,
    doneCalls := 0 }

/-- What the step relation takes from outside the program. -/
structure Env where
  cfg : config
  s3New : String → S3
  canOpen : String → Bool

/-- The state of `run` after the workers and the producer goroutine have been started: the
requests the producer loop has not sent yet, the content of `listAllObjectsQueue` and
whether it is closed, the workers, the counter of the wait group, the files, and whether
the process has exited in `log.Fatal` or `wg.Wait()` has returned. -/
structure World where
  toSend : List ListAllObjectsRequest
  queue : List ListAllObjectsRequest
  closed : Bool
  workers : List WorkerState
  wg : Int
  fs : FileSystem
  exited : Bool
  returned : Bool

/-- The steps of the goroutines. -/
inductive Event where
  | send
  | close
  | stop (i : Nat)
  | pop (i : Nat)
  | drained (i : Nat)
  | push (i : Nat)
  | quit (i : Nat)
  | work (i : Nat)
  | finish (i : Nat)
  | wait
  deriving DecidableEq, Repr

/-- Replace worker `i`. -/
def World.setWorker (w : World) (i : Nat) (ws : WorkerState) : World :=
  { w with workers := w.workers.set i ws }

/-- One step of one goroutine; `none` when the step is not enabled.
* `send`: the producer sends its next request (line 187); the queue has capacity 5.
* `close`: the producer has sent everything and closes the queue (line 135).
* `stop i`: a call of `Stop` on worker `i` starts a goroutine that blocks sending on
  `QuitChan`.
* `pop i`: the intake stage receives the next request of the queue (line 201).
* `drained i`: the queue is closed and empty, the `range` loop of the intake stage ends
  and the stage returns, closing `processRequestChan`.
* `push i`: the `select` hands the request to the processing stage waiting at its receive
  (line 204).
* `quit i`: the `select` receives from `QuitChan` and the stage returns (lines 206-208).
* `work i`: the processing stage runs the loop body on its request; a `log.Fatal` exits
  the process.
* `finish i`: `processRequestChan` is closed, the loop of the processing stage ends, the
  stage returns and the deferred `DoneCallback` runs `wg.Done()` (lines 216, 238, 117).
* `wait`: the counter is zero, `wg.Wait()` returns (line 138) and with it `run`.
No goroutine steps once the process has exited or `run` has returned. -/
def step (env : Env) (w : World) (e : Event) : Option World :=
  if w.exited || w.returned then none
  else
    match e with
    | Event.send =>
      match w.toSend with
      | [] => none
      | request :: rest =>
        if w.queue.length < 5 then some { w with toSend := rest, queue := w.queue ++ [request] }
        else none
    | Event.close =>
      if w.toSend = [] ∧ w.closed = false then some { w with closed := true } else none
    | Event.stop i =>
      match w.workers[i]? with
      | none => none
      | some ws => some (w.setWorker i { ws with quitSenders := ws.quitSenders + 1 })
    | Event.pop i =>
      match w.workers[i]?, w.queue with
      | some ws, request :: rest =>
        if ws.intake = Intake.receiving then
          some ({ w with queue := rest }.setWorker i { ws with intake := Intake.selecting request })
        else none
      | _, _ => none
    | Event.drained i =>
      match w.workers[i]? with
      | none => none
      | some ws =>
        if ws.intake = Intake.receiving ∧ w.queue = [] ∧ w.closed = true then
          some (w.setWorker i { ws with intake := Intake.returned })
        else none
    | Event.push i =>
      match w.workers[i]? with
      | none => none
      | some ws =>
        match ws.intake, ws.processing with
        | Intake.selecting request, Processing.receiving =>
          some (w.setWorker i
            { ws with intake := Intake.receiving, processing := Processing.working request })
        | _, _ => none
    | Event.quit i =>
      match w.workers[i]? with
      | none => none
      | some ws =>
        match ws.intake with
        | Intake.selecting _ =>
          if 0 < ws.quitSenders then
            some (w.setWorker i
              { ws with intake := Intake.returned, quitSenders := ws.quitSenders - 1 })
          else none
        | _ => none
    | Event.work i =>
      match w.workers[i]? with
      | none => none
      | some ws =>
        match ws.processing with
        | Processing.working request =>
          match processRequest env.cfg env.s3New env.canOpen w.fs request with
          | none => some { w with exited := true }
          | some fs2 =>
            some ({ w with fs := fs2 }.setWorker i { ws with processing := Processing.receiving })
        | _ => none
    | Event.finish i =>
      match w.workers[i]? with
      | none => none
      | some ws =>
        if ws.processing = Processing.receiving ∧ ws.intake = Intake.returned then
          some ({ w with wg := w.wg - 1 }.setWorker i
            { ws with processing := Processing.returned, doneCalls := ws.doneCalls + 1 })
        else none
    | Event.wait =>
      if w.wg = 0 then some { w with returned := true } else none

/-- A sequence of steps. -/
def steps (env : Env) : World → List Event → Option World
  | w, [] => some w
  | w, e :: es =>
    match step env w e with
    | none => none
    | some w2 => steps env w2 es

/-- The state in which `run` reaches `wg.Wait()` (line 138): `n` workers started with
`wg.Add(1)` each (lines 121-131), the producer about to send `requests`, the queue empty
and open. -/
def World.init (n : Nat) (requests : List ListAllObjectsRequest) (fs : FileSystem) : World :=
  { toSend := requests, queue := [], closed := false,
    workers := List.replicate n WorkerState.start, wg := n, fs := fs, exited := false,
    returned := false }

/-- The states that `run` can reach. -/
def Reachable (env : Env) (n : Nat) (requests : List ListAllObjectsRequest) (fs : FileSystem)
    (w : World) : Prop :=
  ∃ es : List Event, steps env (World.init n requests fs) es = some w

/-- An environment in which no file can be opened. -/
def envClosed : Env := { cfg := cfg0, s3New := fun _ => svcDeep, canOpen := fun _ => false }

/-- An environment in which every file can be opened. -/
def envOpen : Env := { cfg := cfg0, s3New := fun _ => svcDeep, canOpen := fun _ => true }

/-- What a test observes of a world: the queue, the stages of the workers, their callback
counts, the counter, and the two end flags. -/
def World.view (w : World) :
    List ListAllObjectsRequest × List (Intake × Processing × Nat) × Int × Bool × Bool :=
  (w.queue, w.workers.map (fun ws => (ws.intake, ws.processing, ws.doneCalls)), w.wg,
    w.exited, w.returned)

/-- A world with one worker waiting for its next request, a `Stop` already issued to it,
and one request in the queue. -/
def worldStopped : World :=
  { toSend := [], queue := [mkRequest cfg0 "a/"], closed := false,
    workers := [{ WorkerState.start with quitSenders := 1 }], wg := 1, fs := fun _ => none,
    exited := false, returned := false }

/-! ## Definitions: the invariant of `run` -/

/-- One for a worker whose processing stage has not returned, zero otherwise. -/
def pend (ws : WorkerState) : Nat := if ws.processing = Processing.returned then 0 else 1

/-- The number of workers whose processing stage has not returned. -/
def pendingCount (l : List WorkerState) : Nat := (l.map pend).sum

/-- A worker's callback count agrees with its stages: the processing stage returns only
after the intake stage, and the callback has run once if the processing stage has returned
and not at all otherwise. -/
def WorkerState.ok (ws : WorkerState) : Prop :=
  (ws.processing = Processing.returned → ws.intake = Intake.returned) ∧
  ws.doneCalls = (if ws.processing = Processing.returned then 1 else 0)

/-- The invariant of `run`: every worker is `ok`, the counter of the wait group is the
number of workers whose processing stage has not returned, and `wg.Wait()` has returned
only at counter zero. -/
def Inv (w : World) : Prop :=
  (∀ ws ∈ w.workers, ws.ok) ∧ w.wg = (pendingCount w.workers : Int) ∧
  (w.returned = true → w.wg = 0)

/-! ## Definitions: reading decimal digits back -/

/-- A decimal digit character. -/
def isDig (c : Char) : Bool := decide (48 ≤ c.toNat) && decide (c.toNat ≤ 57)

/-- The value of a decimal digit character. -/
def digitVal (c : Char) : Nat := c.toNat - 48

/-- The number written by decimal digits, least significant first. -/
def parseRev : List Char → Nat
  | [] => 0
  | c :: cs => digitVal c + 10 * parseRev cs

/-- The number written by decimal digits, most significant first. -/
def natOf (s : List Char) : Nat := parseRev s.reverse

/-- The zero-padded digits of `time.appendInt`. -/
def padded (u width : Nat) : List Char :=
  List.replicate (width - (formatUint u).length) '0' ++ formatUint u

/-! ## Definitions: unquoted CSV characters, a `json` configuration -/

/-- The characters that an unquoted field of the CSV writer can hold. -/
def plainCsv (c : Char) : Bool := !(decide (c = ',') || (c = '"' || c = '\r' || c = '\n'))

/-- The example configuration with output format `json`. -/
def cfgJson : config := { cfg0 with OutputFormat := "json" }

/-! ## Lemmas and claims: splitting, the listing loop, the producer -/

theorem splitByte_ne_nil (c : Char) (s : List Char) : splitByte c s ≠ [] := by
  induction s with
  | nil => simp [splitByte]
  | cons x xs ih =>
    unfold splitByte
    split
    · simp
    · split <;> simp

theorem lastPiece_nil (c : Char) : lastPiece c [] = [] := by
  simp [lastPiece, splitByte]

theorem lastPiece_cons_sep (c : Char) (s : List Char) : lastPiece c (c :: s) = lastPiece c s := by
  unfold lastPiece
  rw [splitByte]
  simp only [if_true]
  cases h : splitByte c s with
  | nil => exact absurd h (splitByte_ne_nil c s)
  | cons a l => simp [List.getLastD]

theorem splitByte_of_not_mem (c : Char) (s : List Char) (h : c ∉ s) : splitByte c s = [s] := by
  induction s with
  | nil => simp [splitByte]
  | cons x xs ih =>
    have hx : x ≠ c := fun e => h (by simp [e])
    have hxs : c ∉ xs := fun e => h (by simp [e])
    rw [splitByte, if_neg hx, ih hxs]

theorem lastPiece_of_not_mem (c : Char) (s : List Char) (h : c ∉ s) : lastPiece c s = s := by
  simp [lastPiece, splitByte_of_not_mem c s h]

theorem not_mem_of_splitByte_singleton (c : Char) (t a : List Char)
    (ht : splitByte c t = [a]) : c ∉ t := by
  induction t generalizing a with
  | nil => simp
  | cons y ys ih =>
    rw [splitByte] at ht
    by_cases hy : y = c
    · rw [if_pos hy] at ht
      have := splitByte_ne_nil c ys
      simp at ht
      exact absurd ht.2 this
    · rw [if_neg hy] at ht
      cases h2 : splitByte c ys with
      | nil => exact absurd h2 (splitByte_ne_nil c ys)
      | cons b m =>
        rw [h2] at ht
        simp at ht
        have hm : m = [] := ht.2
        subst hm
        have := ih b h2
        simp [this, Ne.symm hy]

theorem lastPiece_cons_ne (c x : Char) (s : List Char) (hx : x ≠ c) :
    lastPiece c (x :: s) = if c ∈ s then lastPiece c s else x :: s := by
  by_cases hc : c ∈ s
  · rw [if_pos hc]
    unfold lastPiece
    rw [splitByte, if_neg hx]
    cases h : splitByte c s with
    | nil => exact absurd h (splitByte_ne_nil c s)
    | cons a l =>
      cases l with
      | nil => exact absurd hc (not_mem_of_splitByte_singleton c s a h)
      | cons b m => simp [List.getLastD]
  · rw [if_neg hc]
    exact lastPiece_of_not_mem c (x :: s) (by simp [hc, Ne.symm hx])

theorem lastPiece_append_sep (c : Char) (s t : List Char) :
    lastPiece c (s ++ c :: t) = lastPiece c t := by
  induction s with
  | nil => simpa using lastPiece_cons_sep c t
  | cons x xs ih =>
    by_cases hx : x = c
    · subst hx
      rw [List.cons_append, lastPiece_cons_sep, ih]
    · rw [List.cons_append, lastPiece_cons_ne c x _ hx, if_pos (by simp), ih]

theorem lastPiece_append_of_not_mem (c : Char) (s t : List Char) (h : c ∉ t) :
    lastPiece c (s ++ t) = lastPiece c s ++ t := by
  induction s with
  | nil => simpa [lastPiece_nil] using lastPiece_of_not_mem c t h
  | cons x xs ih =>
    by_cases hx : x = c
    · subst hx
      rw [List.cons_append, lastPiece_cons_sep, lastPiece_cons_sep, ih]
    · rw [List.cons_append, lastPiece_cons_ne c x _ hx, lastPiece_cons_ne c x _ hx]
      by_cases hc : c ∈ xs
      · rw [if_pos hc, if_pos (by simp [hc]), ih]
      · rw [if_neg hc, if_neg (by simp [hc, h])]
        simp

theorem lastPiece_trimLeftByte (c : Char) (s : List Char) :
    lastPiece c (trimLeftByte c s) = lastPiece c s := by
  induction s with
  | nil => simp [trimLeftByte]
  | cons x xs ih =>
    by_cases hx : x = c
    · subst hx
      rw [trimLeftByte, if_pos rfl, ih, lastPiece_cons_sep]
    · rw [trimLeftByte, if_neg hx]

theorem trimRightByte_append_singleton (c x : Char) (s : List Char) :
    trimRightByte c (s ++ [x]) = if x = c then trimRightByte c s else s ++ [x] := by
  unfold trimRightByte
  rw [List.reverse_append, List.reverse_singleton, List.singleton_append, trimLeftByte]
  split <;> simp

theorem trimRightByte_nil (c : Char) : trimRightByte c [] = [] := by
  simp [trimRightByte, trimLeftByte]

theorem getD_pred_length_map_mk (l : List (List Char)) :
    (l.map String.mk).getD ((l.map String.mk).length - 1) "" = String.mk (l.getLastD []) := by
  induction l with
  | nil => rfl
  | cons a l ih =>
    cases l with
    | nil => rfl
    | cons b m =>
      simp only [List.map_cons, List.length_cons, Nat.add_sub_cancel, List.getD_cons_succ,
        List.getLastD_cons] at ih ⊢
      simpa using ih

theorem advertiserId_eq_lastPiece (key : String) :
    advertiserId key = String.mk (lastPiece '/' (trimRightByte '/' key.data)) := by
  unfold advertiserId strings.Split strings.Trim
  simp only []
  rw [getD_pred_length_map_mk]
  exact congrArg String.mk (lastPiece_trimLeftByte '/' _)

theorem foldl_entries {σ β : Type} (process : ListObjectProcessFunc σ) (mk : β → ListObject)
    (l : List β) (s : ListState σ) :
    l.foldl (fun (acc : ListState σ) value =>
        { acc with objectNum := acc.objectNum + 1, st := process (mk value) acc.st }) s =
      { pageNum := s.pageNum, objectNum := s.objectNum + l.length,
        st := (l.map mk).foldl (fun st o => process o st) s.st } := by
  induction l generalizing s with
  | nil => simp
  | cons a l ih =>
    rw [List.foldl_cons, ih]
    simp only [List.length_cons, List.map_cons, List.foldl_cons, Nat.cast_add, Nat.cast_one]
    congr 1
    omega

theorem pageCallback_fst {σ : Type} (cfg : config) (bucket : String)
    (process : ListObjectProcessFunc σ) (s : ListState σ) (page : ListObjectsOutput)
    (lastPage : Bool) :
    (pageCallback cfg bucket process s page lastPage).1 =
      { pageNum := s.pageNum + 1,
        objectNum := s.objectNum + page.Contents.length + page.CommonPrefixes.length,
        st := (pageEntries bucket page).foldl (fun st o => process o st) s.st } := by
  simp only [pageCallback, pageEntries, foldl_entries, List.foldl_append]

theorem pageCallback_snd {σ : Type} (cfg : config) (bucket : String)
    (process : ListObjectProcessFunc σ) (s : ListState σ) (page : ListObjectsOutput)
    (lastPage : Bool) :
    (pageCallback cfg bucket process s page lastPage).2 =
      (decide (s.pageNum + 1 < cfg.MaxPages) || decide (cfg.MaxPages = 0)) := by
  have h := pageCallback_fst cfg bucket process s page lastPage
  have h2 : (pageCallback cfg bucket process s page lastPage).2 =
      (decide ((pageCallback cfg bucket process s page lastPage).1.pageNum < cfg.MaxPages) ||
        decide (cfg.MaxPages = 0)) := rfl
  rw [h2, h]

theorem pages_unbounded {σ : Type} (cfg : config) (bucket : String)
    (process : ListObjectProcessFunc σ) (h0 : cfg.MaxPages = 0)
    (pages : List ListObjectsOutput) (s : ListState σ) :
    (ListObjectsPages (pageCallback cfg bucket process) pages s).pageNum =
        s.pageNum + pages.length ∧
    (ListObjectsPages (pageCallback cfg bucket process) pages s).st =
        (pages.flatMap (pageEntries bucket)).foldl (fun st o => process o st) s.st := by
  induction pages generalizing s with
  | nil => simp [ListObjectsPages]
  | cons page rest ih =>
    rw [ListObjectsPages]
    rw [pageCallback_snd, if_pos (by simp [h0])]
    have h := ih (pageCallback cfg bucket process s page rest.isEmpty).1
    rw [pageCallback_fst] at h ⊢
    constructor
    · rw [h.1]; simp only [List.length_cons, Nat.cast_add, Nat.cast_one]; omega
    · rw [h.2]; simp [List.flatMap_cons, List.foldl_append]

theorem pages_capped {σ : Type} (cfg : config) (bucket : String)
    (process : ListObjectProcessFunc σ) (pages : List ListObjectsOutput) (s : ListState σ)
    (k : Nat) (hs : 0 ≤ s.pageNum) (hk : s.pageNum + (k + 1) = cfg.MaxPages) :
    (ListObjectsPages (pageCallback cfg bucket process) pages s).pageNum =
        s.pageNum + min (k + 1) pages.length ∧
    (ListObjectsPages (pageCallback cfg bucket process) pages s).st =
        ((pages.take (k + 1)).flatMap (pageEntries bucket)).foldl
          (fun st o => process o st) s.st := by
  induction pages generalizing s k with
  | nil => simp [ListObjectsPages]
  | cons page rest ih =>
    rw [ListObjectsPages]
    rw [pageCallback_snd]
    cases k with
    | zero =>
      have h1 : ¬ (s.pageNum + 1 < cfg.MaxPages) := by omega
      have h2 : ¬ (cfg.MaxPages = 0) := by omega
      rw [if_neg (by simp [h1, h2]), pageCallback_fst]
      simp
    | succ k =>
      have h1 : s.pageNum + 1 < cfg.MaxPages := by omega
      rw [if_pos (by simp [h1])]
      have h := ih (pageCallback cfg bucket process s page rest.isEmpty).1 k
        (by rw [pageCallback_fst]; dsimp only; omega)
        (by rw [pageCallback_fst]; dsimp only; omega)
      rw [pageCallback_fst] at h ⊢
      constructor
      · rw [h.1]
        dsimp only
        simp only [List.length_cons]
        omega
      · rw [h.2]; simp [List.flatMap_cons, List.foldl_append]

theorem listObjects_params (cfg : config) (bucket pfx delimiter : String) :
    (if pfx ≠ "" then
        { (if delimiter ≠ "" then
            { ({ Bucket := bucket, MaxKeys := cfg.MaxKeys, Delimiter := none,
                 Prefix_ := none } : ListObjectsInput) with Delimiter := some delimiter }
          else { Bucket := bucket, MaxKeys := cfg.MaxKeys, Delimiter := none, Prefix_ := none })
          with Prefix_ := some pfx }
      else
        (if delimiter ≠ "" then
            { ({ Bucket := bucket, MaxKeys := cfg.MaxKeys, Delimiter := none,
                 Prefix_ := none } : ListObjectsInput) with Delimiter := some delimiter }
          else { Bucket := bucket, MaxKeys := cfg.MaxKeys, Delimiter := none, Prefix_ := none })) =
      listParams cfg bucket pfx delimiter := by
  unfold listParams
  by_cases h1 : pfx = "" <;> by_cases h2 : delimiter = "" <;> simp [h1, h2]

theorem listObjects_eq {σ : Type} (cfg : config) (bucket pfx delimiter : String) (svc : S3)
    (process : ListObjectProcessFunc σ) (st : σ) :
    listObjects cfg bucket pfx delimiter svc process st =
      ListObjectsPages (pageCallback cfg bucket process)
        (svc (listParams cfg bucket pfx delimiter)) { pageNum := 0, objectNum := 0, st := st } := by
  unfold listObjects
  dsimp only
  rw [listObjects_params]

theorem pages_negative_cap {σ : Type} (cfg : config) (bucket : String)
    (process : ListObjectProcessFunc σ) (page : ListObjectsOutput) (rest : List ListObjectsOutput)
    (st : σ) (hneg : cfg.MaxPages < 0) :
    (ListObjectsPages (pageCallback cfg bucket process) (page :: rest)
        { pageNum := 0, objectNum := 0, st := st }).pageNum = 1 := by
  rw [ListObjectsPages, pageCallback_snd]
  have h1 : ¬ ((0 : Int) + 1 < cfg.MaxPages) := by omega
  have h2 : ¬ (cfg.MaxPages = 0) := by omega
  have hc : (decide ((0 : Int) + 1 < cfg.MaxPages) || decide (cfg.MaxPages = 0)) = false := by
    rw [decide_eq_false h1, decide_eq_false h2]
    rfl
  dsimp only
  rw [hc, pageCallback_fst]
  simp

theorem trimRightByte_single (c : Char) (s : List Char) (hsuf : ¬ [c, c] <:+ s) :
    trimRightByte c s = (if s.getLast? = some c then s.dropLast else s) := by
  rcases List.eq_nil_or_concat s with h | ⟨t, x, h⟩
  · rw [h]; simp [trimRightByte_nil]
  · rw [List.concat_eq_append] at h
    subst h
    rw [trimRightByte_append_singleton, List.getLast?_concat, List.dropLast_concat]
    by_cases hx : x = c
    · subst hx
      rw [if_pos rfl, if_pos rfl]
      rcases List.eq_nil_or_concat t with h2 | ⟨t2, y, h2⟩
      · rw [h2]; exact trimRightByte_nil x
      · rw [List.concat_eq_append] at h2
        subst h2
        have hy : y ≠ x := by
          intro e
          apply hsuf
          rw [e]
          exact ⟨t2, by simp⟩
        rw [trimRightByte_append_singleton, if_neg hy]
    · rw [if_neg hx, if_neg (by simpa using hx)]

theorem zip_map_self {α β : Type} (f : α → β) (l : List α) :
    l.zip (l.map f) = l.map (fun a => (a, f a)) := by
  induction l with
  | nil => rfl
  | cons a l ih => simp [ih]

theorem producerLoop_eq (cfg : config) (targetExists : String → Bool) (files : List ListObject) :
    producerLoop cfg targetExists files =
      (files.filter (dispatched cfg targetExists)).map (fun f => mkRequest cfg f.File) := by
  induction files with
  | nil => rfl
  | cons file rest ih =>
    rw [producerLoop]
    by_cases hp : file.Type_ = "PREFIX"
    · rw [if_neg (by simpa using hp)]
      by_cases hs : (!cfg.Force && targetExists (outputFile cfg file.File)) = true
      · rw [if_pos hs, ih, List.filter_cons_of_neg]
        simp only [dispatched, hp, decide_True, Bool.true_and]
        revert hs
        cases cfg.Force <;> cases targetExists (outputFile cfg file.File) <;> simp
      · rw [if_neg hs, ih, List.filter_cons_of_pos, List.map_cons]
        simp only [dispatched, hp, decide_True, Bool.true_and]
        revert hs
        cases cfg.Force <;> cases targetExists (outputFile cfg file.File) <;> simp
    · rw [if_pos (by simpa using hp), ih, List.filter_cons_of_neg]
      simp [dispatched, hp]

theorem string_append_left_cancel (a x y : String) (h : a ++ x = a ++ y) : x = y := by
  have hd := congrArg String.data h
  rw [String.data_append, String.data_append] at hd
  exact String.ext (List.append_cancel_left hd)

theorem advertiserId_partition (root seg : String) (hne : seg.data ≠ [])
    (hs : '/' ∉ seg.data) :
    advertiserId (root ++ seg ++ "/") = String.mk (lastPiece '/' root.data ++ seg.data) := by
  rw [advertiserId_eq_lastPiece]
  congr 1
  have hd : (root ++ seg ++ "/").data = (root.data ++ seg.data) ++ ['/'] := by
    simp [String.data_append]
  rw [hd, trimRightByte_append_singleton, if_pos rfl]
  have hlast : seg.data.dropLast ++ [seg.data.getLast hne] = seg.data :=
    List.dropLast_append_getLast hne
  have hy : seg.data.getLast hne ≠ '/' := by
    intro e
    exact hs (e ▸ List.getLast_mem hne)
  have h2 : trimRightByte '/' (root.data ++ seg.data) = root.data ++ seg.data := by
    rw [← hlast, ← List.append_assoc, trimRightByte_append_singleton, if_neg hy]
  rw [h2]
  exact lastPiece_append_of_not_mem '/' root.data seg.data hs

theorem lastPiece_root (root : String)
    (hroot : root = "" ∨ root.data.getLast? = some '/') : lastPiece '/' root.data = [] := by
  rcases hroot with h | h
  · subst h
    exact lastPiece_nil '/'
  · have hd : root.data.dropLast ++ ['/'] = root.data :=
      List.dropLast_append_getLast? '/' (by simp [h])
    rw [← hd, lastPiece_append_sep]
    exact lastPiece_nil '/'

theorem mkRequest_prefix_partition (cfg : config) (seg : String)
    (hroot : cfg.Prefix = "" ∨ cfg.Prefix.data.getLast? = some '/')
    (hne : seg.data ≠ []) (hs : '/' ∉ seg.data) :
    (mkRequest cfg (cfg.Prefix ++ seg ++ "/")).Prefix = cfg.Prefix ++ seg ++ "/" := by
  unfold mkRequest
  dsimp only
  rw [advertiserId_partition cfg.Prefix seg hne hs, lastPiece_root cfg.Prefix hroot]
  rfl

theorem outputFile_partition_injective (cfg : config) (root seg1 seg2 : String)
    (hne1 : seg1.data ≠ []) (hs1 : '/' ∉ seg1.data)
    (hne2 : seg2.data ≠ []) (hs2 : '/' ∉ seg2.data)
    (h : outputFile cfg (root ++ seg1 ++ "/") = outputFile cfg (root ++ seg2 ++ "/")) :
    seg1 = seg2 := by
  unfold outputFile at h
  have hid := string_append_left_cancel _ _ _ h
  rw [advertiserId_partition root seg1 hne1 hs1, advertiserId_partition root seg2 hne2 hs2] at hid
  have hd := congrArg String.data hid
  exact String.ext (List.append_cancel_left hd)

/-- C1: the output files of the requests that the producer loop sends are, in discovery
order, the paths `<OutputLocation>/advertiser_<id>` of exactly the `PREFIX` entries for which
`Force` is set or the path does not exist; `ListAllObjectsProducer` runs that loop on the
entries of its shallow pass. -/
theorem ListAllObjectsProducer_jobs (cfg : config) (svc : S3) (targetExists : String → Bool)
    (files : List ListObject) :
    (producerLoop cfg targetExists files).map (fun r => r.OutputFile) =
      (files.filter (fun f => decide (f.Type_ = "PREFIX") &&
          (cfg.Force ||
            !targetExists (cfg.OutputLocation ++ "/advertiser_" ++ advertiserId f.File)))).map
        (fun f => cfg.OutputLocation ++ "/advertiser_" ++ advertiserId f.File) ∧
    (ListAllObjectsProducer cfg svc targetExists).2 =
      producerLoop { cfg with MaxKeys := cfg.FileMaxKeys, MaxPages := cfg.FileMaxPages }
        targetExists
        (listObjects { cfg with MaxKeys := cfg.AdvMaxKeys, MaxPages := cfg.AdvMaxPages }
          cfg.Bucket cfg.Prefix "/" svc appendObject []).st := by
  constructor
  · rw [producerLoop_eq, List.map_map]
    rfl
  · rfl

/-- C1, the examples of the claim: prefixes `a/`, `b/`, `c/` give the three targets; with
the target of `a/` present and `Force` off, the targets of `b/` and `c/`. -/
theorem ListAllObjectsProducer_jobs_witness :
    (producerLoop cfg0 (fun _ => false)
        [pfxEntry "a/", pfxEntry "b/", pfxEntry "c/"]).map (fun r => r.OutputFile) =
      ["./target/advertiser_a", "./target/advertiser_b", "./target/advertiser_c"] ∧
    (producerLoop cfg0 (fun p => decide (p = "./target/advertiser_a"))
        [pfxEntry "a/", pfxEntry "b/", pfxEntry "c/"]).map (fun r => r.OutputFile) =
      ["./target/advertiser_b", "./target/advertiser_c"] := by
  constructor
  · rw [(ListAllObjectsProducer_jobs cfg0 svc3 _ _).1]
    decide
  · rw [(ListAllObjectsProducer_jobs cfg0 svc3 _ _).1]
    decide

theorem pages_visited {σ : Type} (cfg : config) (bucket : String)
    (process : ListObjectProcessFunc σ) (pages : List ListObjectsOutput) (s : ListState σ) :
    (ListObjectsPages (pageCallback cfg bucket process) pages s).st =
      ((visited cfg s.pageNum pages).flatMap (pageEntries bucket)).foldl
        (fun st o => process o st) s.st := by
  induction pages generalizing s with
  | nil => simp [ListObjectsPages, visited]
  | cons page rest ih =>
    rw [ListObjectsPages, pageCallback_snd, visited]
    by_cases hc : (decide (s.pageNum + 1 < cfg.MaxPages) || decide (cfg.MaxPages = 0)) = true
    · rw [if_pos hc, if_pos hc, ih, pageCallback_fst]
      simp [List.flatMap_cons, List.foldl_append]
    · rw [if_neg hc, if_neg hc, pageCallback_fst]
      simp [List.flatMap_cons, List.foldl_append]

theorem pages_visited_num {σ : Type} (cfg : config) (bucket : String)
    (process : ListObjectProcessFunc σ) (pages : List ListObjectsOutput) (s : ListState σ) :
    (ListObjectsPages (pageCallback cfg bucket process) pages s).pageNum =
      s.pageNum + (visited cfg s.pageNum pages).length := by
  induction pages generalizing s with
  | nil => simp [ListObjectsPages, visited]
  | cons page rest ih =>
    rw [ListObjectsPages, pageCallback_snd, visited]
    by_cases hc : (decide (s.pageNum + 1 < cfg.MaxPages) || decide (cfg.MaxPages = 0)) = true
    · rw [if_pos hc, if_pos hc, ih, pageCallback_fst]
      simp only [List.length_cons, Nat.cast_add, Nat.cast_one]
      omega
    · rw [if_neg hc, if_neg hc, pageCallback_fst]
      simp

theorem visited_eq_take (cfg : config) (n : Int) (pages : List ListObjectsOutput) :
    visited cfg n pages = pages.take (visited cfg n pages).length := by
  induction pages generalizing n with
  | nil => simp [visited]
  | cons page rest ih =>
    rw [visited]
    split
    · rw [List.length_cons, List.take_succ_cons, ← ih]
    · simp

theorem visited_length_le (cfg : config) (n : Int) (pages : List ListObjectsOutput) :
    (visited cfg n pages).length ≤ pages.length := by
  have h := congrArg List.length (visited_eq_take cfg n pages)
  rw [List.length_take] at h
  omega

/-- C2: `listObjects` requests an initial run of the pages, `pageNum` many, and hands every
entry of every requested page to the consumer once, in page order; with `MaxPages = 0` it
requests every page, with `MaxPages > 0` exactly the first `min MaxPages (number of pages)`
pages. -/
theorem listObjects_page_cap {σ : Type} (cfg : config) (bucket pfx delimiter : String)
    (svc : S3) (process : ListObjectProcessFunc σ) (st : σ) :
    (0 ≤ (listObjects cfg bucket pfx delimiter svc process st).pageNum ∧
      (listObjects cfg bucket pfx delimiter svc process st).pageNum ≤
          (svc (listParams cfg bucket pfx delimiter)).length ∧
      (listObjects cfg bucket pfx delimiter svc process st).st =
          (((svc (listParams cfg bucket pfx delimiter)).take
            (listObjects cfg bucket pfx delimiter svc process st).pageNum.toNat).flatMap
            (pageEntries bucket)).foldl (fun st o => process o st) st) ∧
    (cfg.MaxPages = 0 →
      (listObjects cfg bucket pfx delimiter svc process st).pageNum =
          (svc (listParams cfg bucket pfx delimiter)).length) ∧
    (0 < cfg.MaxPages →
      (listObjects cfg bucket pfx delimiter svc process st).pageNum =
          min cfg.MaxPages (svc (listParams cfg bucket pfx delimiter)).length) := by
  rw [listObjects_eq]
  refine ⟨?_, ?_, ?_⟩
  · have hn := pages_visited_num cfg bucket process (svc (listParams cfg bucket pfx delimiter))
      { pageNum := 0, objectNum := 0, st := st }
    have hs := pages_visited cfg bucket process (svc (listParams cfg bucket pfx delimiter))
      { pageNum := 0, objectNum := 0, st := st }
    have hle := visited_length_le cfg 0 (svc (listParams cfg bucket pfx delimiter))
    simp only [zero_add] at hn
    refine ⟨by omega, by omega, ?_⟩
    rw [hs, hn, Int.toNat_ofNat, ← visited_eq_take]
  · intro h0
    have h := pages_unbounded cfg bucket process h0 (svc (listParams cfg bucket pfx delimiter))
      { pageNum := 0, objectNum := 0, st := st }
    simpa using h.1
  · intro hpos
    obtain ⟨k, hk⟩ : ∃ k : Nat, cfg.MaxPages = ((k + 1 : Nat) : Int) :=
      ⟨cfg.MaxPages.toNat - 1, by omega⟩
    have h := pages_capped cfg bucket process (svc (listParams cfg bucket pfx delimiter))
      { pageNum := 0, objectNum := 0, st := st } k (le_refl _) (by simp [hk])
    rw [h.1, hk]
    simp only [zero_add]
    omega

/-- C2 at a provider with three pages and `MaxPages = 2`: two pages are requested and the
consumer receives the entries of the first two pages. -/
theorem listObjects_page_cap_witness :
    (0 : Int) < cfgCap2.MaxPages ∧
    (listObjects cfgCap2 "b" "" "/" svc3 appendObject []).pageNum = 2 ∧
    (listObjects cfgCap2 "b" "" "/" svc3 appendObject []).st =
      [pfxEntry "a/", pfxEntry "b/"] := by
  have h := listObjects_page_cap cfgCap2 "b" "" "/" svc3 appendObject []
  have h2 := h.2.2 (by decide)
  refine ⟨by decide, ?_, ?_⟩
  · rw [h2]; decide
  · rw [h.1.2.2, h2]; decide

/-- C4, counterexample: for the key `a//` the code computes `a`, the final segment after
stripping the trailing delimiter is empty. -/
theorem advertiserId_double_slash :
    advertiserId "a//" = "a" ∧ specPartitionId "a//" = "" ∧
      advertiserId "a//" ≠ specPartitionId "a//" := by
  decide

/-- C4 (amended): the identifier is the final `/`-separated segment of the key after all
of its trailing `/` have been stripped; for a key that does not end in `//` this is the
final segment after stripping the one trailing delimiter. -/
theorem advertiserId_final_segment (key : String) :
    advertiserId key =
      String.mk ((splitByte '/' (trimRightByte '/' key.data)).getLastD []) ∧
    (¬ ['/', '/'] <:+ key.data → advertiserId key = specPartitionId key) := by
  refine ⟨advertiserId_eq_lastPiece key, ?_⟩
  intro hsuf
  rw [advertiserId_eq_lastPiece]
  unfold specPartitionId lastPiece
  have key_eq : trimRightByte '/' key.data =
      (if key.data.getLast? = some '/' then key.data.dropLast else key.data) :=
    trimRightByte_single '/' key.data hsuf
  rw [key_eq]

/-- C4 (amended) at the keys `x/y/` and `a/`. -/
theorem advertiserId_final_segment_witness :
    ¬ ['/', '/'] <:+ ("x/y/" : String).data ∧ advertiserId "x/y/" = specPartitionId "x/y/" ∧
      advertiserId "x/y/" = "y" ∧ advertiserId "a/" = "a" := by
  refine ⟨by decide, (advertiserId_final_segment "x/y/").2 (by decide), by decide, by decide⟩

/-- C5, counterexample: for root prefix `""` and the entry `a/` the request's prefix is
`a/`, not root prefix followed by the identifier (`a`). -/
theorem request_prefix_has_delimiter :
    (producerLoop cfg0 (fun _ => false) [pfxEntry "a/"]).map (fun r => r.Prefix) = ["a/"] ∧
      cfg0.Prefix ++ advertiserId "a/" = "a" := by
  decide

/-- C5 (amended): every request the producer sends has as prefix the root prefix, the
partition identifier and the delimiter `/`, in this order, and as bucket the configured
bucket. -/
theorem producer_request_prefix (cfg : config) (targetExists : String → Bool)
    (files : List ListObject) :
    (producerLoop cfg targetExists files).map (fun r => (r.Prefix, r.Bucket)) =
      (files.filter (dispatched cfg targetExists)).map
        (fun f => (cfg.Prefix ++ advertiserId f.File ++ "/", cfg.Bucket)) := by
  rw [producerLoop_eq, List.map_map]
  rfl

/-- C6, counterexample: under root prefix `x/` the shallow pass delivers the distinct keys
`x//` and `x/x/` (objects `x//…` and `x/x/…`); with `Force` set the producer sends a request
for each, and the two requests have the same output file. -/
theorem output_targets_collide :
    (listObjects cfgX "b" "x/" "/" svcX appendObject []).st.map (fun f => (f.Type_, f.File)) =
      [("PREFIX", "x//"), ("PREFIX", "x/x/")] ∧
    (ListAllObjectsProducer cfgX svcX (fun _ => false)).2.map (fun r => r.OutputFile) =
      ["./target/advertiser_x", "./target/advertiser_x"] := by
  decide

/-- C6 (amended): when the `PREFIX` keys of the run have the form root prefix, a non-empty
segment free of `/`, then `/`, any two requests sent for entries with distinct keys have
distinct output files. -/
theorem output_targets_distinct (cfg : config) (targetExists : String → Bool)
    (files : List ListObject)
    (hform : ∀ f ∈ files, f.Type_ = "PREFIX" → partitionKey cfg.Prefix f.File) :
    List.Pairwise (fun a b => a.1.File ≠ b.1.File → a.2.OutputFile ≠ b.2.OutputFile)
      ((files.filter (dispatched cfg targetExists)).zip (producerLoop cfg targetExists files)) := by
  rw [producerLoop_eq, zip_map_self, List.pairwise_map]
  apply List.pairwise_of_forall_mem_list
  intro a ha b hb hne
  have ha2 := List.mem_filter.mp ha
  have hb2 := List.mem_filter.mp hb
  have hpa : a.Type_ = "PREFIX" := by
    have := ha2.2
    simp only [dispatched, Bool.and_eq_true, decide_eq_true_eq] at this
    exact this.1
  have hpb : b.Type_ = "PREFIX" := by
    have := hb2.2
    simp only [dispatched, Bool.and_eq_true, decide_eq_true_eq] at this
    exact this.1
  obtain ⟨s1, hn1, hs1, hk1⟩ := hform a ha2.1 hpa
  obtain ⟨s2, hn2, hs2, hk2⟩ := hform b hb2.1 hpb
  intro heq
  apply hne
  have heq2 : outputFile cfg a.File = outputFile cfg b.File := heq
  rw [hk1, hk2] at heq2 ⊢
  rw [outputFile_partition_injective cfg cfg.Prefix s1 s2 hn1 hs1 hn2 hs2 heq2]

/-- C6 (amended) at the prefixes `a/`, `b/`, `c/` under the empty root prefix. -/
theorem output_targets_distinct_witness :
    List.Pairwise (fun a b => a.1.File ≠ b.1.File → a.2.OutputFile ≠ b.2.OutputFile)
      (([pfxEntry "a/", pfxEntry "b/", pfxEntry "c/"].filter
          (dispatched cfg0 (fun _ => false))).zip
        (producerLoop cfg0 (fun _ => false) [pfxEntry "a/", pfxEntry "b/", pfxEntry "c/"])) := by
  apply output_targets_distinct cfg0 (fun _ => false)
  intro f hf _
  simp only [List.mem_cons, List.mem_singleton, List.not_mem_nil, or_false] at hf
  rcases hf with h | h | h
  · exact ⟨"a", by decide, by decide, by rw [h]; decide⟩
  · exact ⟨"b", by decide, by decide, by rw [h]; decide⟩
  · exact ⟨"c", by decide, by decide, by rw [h]; decide⟩

/-- C10: for a root prefix that is empty or ends with `/`, the request that the producer
builds for a `PREFIX` entry whose key is root prefix, a non-empty segment free of `/`, then
`/`, has that key as its prefix. -/
theorem producer_prefix_is_key (cfg : config) (targetExists : String → Bool)
    (files : List ListObject)
    (hroot : cfg.Prefix = "" ∨ cfg.Prefix.data.getLast? = some '/') :
    ∀ p ∈ (files.filter (dispatched cfg targetExists)).zip (producerLoop cfg targetExists files),
      partitionKey cfg.Prefix p.1.File → p.2.Prefix = p.1.File := by
  intro p hp hkey
  rw [producerLoop_eq, zip_map_self, List.mem_map] at hp
  obtain ⟨f, _, hf⟩ := hp
  subst hf
  obtain ⟨seg, hn, hs, hk⟩ := hkey
  dsimp only at hk ⊢
  rw [hk]
  exact mkRequest_prefix_partition cfg seg hroot hn hs

/-- C10 at root prefix `x/` and the key `x/y/`. -/
theorem producer_prefix_is_key_witness :
    (cfgX.Prefix = "" ∨ cfgX.Prefix.data.getLast? = some '/') ∧
    ((pfxEntry "x/y/", mkRequest cfgX "x/y/") ∈
      ([pfxEntry "x/y/"].filter (dispatched cfgX (fun _ => false))).zip
        (producerLoop cfgX (fun _ => false) [pfxEntry "x/y/"])) ∧
    (mkRequest cfgX "x/y/").Prefix = "x/y/" :=
  ⟨Or.inr (by decide), by decide,
    producer_prefix_is_key cfgX (fun _ => false) [pfxEntry "x/y/"] (Or.inr (by decide))
      (pfxEntry "x/y/", mkRequest cfgX "x/y/") (by decide)
      ⟨"y", by decide, by decide, by decide⟩⟩

/-! ## The processing of one request -/

theorem foldl_appendObject (l init : List ListObject) :
    l.foldl (fun st o => appendObject o st) init = init ++ l := by
  induction l generalizing init with
  | nil => simp
  | cons a l ih =>
    rw [List.foldl_cons, ih]
    simp [appendObject]

theorem listObjects_fold {σ : Type} (cfg : config) (bucket pfx delimiter : String) (svc : S3)
    (process : ListObjectProcessFunc σ) (st : σ) :
    (listObjects cfg bucket pfx delimiter svc process st).st =
      (listObjects cfg bucket pfx delimiter svc appendObject []).st.foldl
        (fun st o => process o st) st := by
  rw [listObjects_eq, listObjects_eq, pages_visited, pages_visited, foldl_appendObject]
  simp

theorem WriteString_append (f : File) (s : String) (h : f.offset = f.content.length) :
    (f.WriteString s).content = f.content ++ s.data ∧
    (f.WriteString s).offset = (f.WriteString s).content.length ∧
    (f.WriteString s).name = f.name := by
  unfold File.WriteString
  simp [h]

theorem foldl_fileOuput (cfg : config) (entries : List ListObject) (lines : List String)
    (f : File) (h : f.offset = f.content.length)
    (hprint : entries.map (printObject cfg) = lines.map some) :
    ∃ f2 : File, entries.foldl (fun st o => fileOuput cfg o st) (some f) = some f2 ∧
      f2.content = f.content ++ (lines.map String.data).flatten ∧ f2.name = f.name := by
  induction entries generalizing f lines with
  | nil =>
    cases lines with
    | nil => exact ⟨f, rfl, by simp, rfl⟩
    | cons l ls => simp at hprint
  | cons e rest ih =>
    cases lines with
    | nil => simp at hprint
    | cons line ls =>
      simp only [List.map_cons, List.cons.injEq] at hprint
      obtain ⟨hp, hr⟩ := hprint
      have hw := WriteString_append f line h
      obtain ⟨f2, h1, h2, h3⟩ := ih ls (f.WriteString line) hw.2.1 hr
      refine ⟨f2, ?_, ?_, ?_⟩
      · rw [List.foldl_cons]
        simp only [fileOuput, hp]
        exact h1
      · rw [h2, hw.1]; simp
      · rw [h3, hw.2.2]

/-- C3: when the output file of a request does not exist, can be opened, and `printObject`
returns a line for every entry of the deep listing, processing the request succeeds, and
afterwards the file exists with content the record separator followed by the lines of the
entries in listing order (the separator alone when the listing has no entries); no other
file changes. -/
theorem processRequest_content (cfg : config) (s3New : String → S3)
    (canOpen : String → Bool) (fs : FileSystem) (request : ListAllObjectsRequest)
    (lines : List String)
    (hnew : fs request.OutputFile = none) (hopen : canOpen request.OutputFile = true)
    (hprint : (deepEntries cfg s3New request).map (printObject cfg) = lines.map some) :
    ∃ fs2 : FileSystem, processRequest cfg s3New canOpen fs request = some fs2 ∧
      fs2 request.OutputFile = some ('\n' :: (lines.map String.data).flatten) ∧
      (deepEntries cfg s3New request = [] → fs2 request.OutputFile = some ['\n']) ∧
      ∀ p, p ≠ request.OutputFile → fs2 p = fs p := by
  unfold processRequest OpenFile
  rw [if_pos hopen, hnew]
  dsimp only
  rw [listObjects_fold]
  have hw := WriteString_append
    { name := request.OutputFile, content := (none : Option (List Char)).getD [], offset := 0 }
    "\n" rfl
  obtain ⟨f2, h1, h2, h3⟩ := foldl_fileOuput cfg (deepEntries cfg s3New request) lines _ hw.2.1 hprint
  unfold deepEntries at h1
  rw [h1]
  have hcontent : f2.content = '\n' :: (lines.map String.data).flatten := by
    rw [h2, hw.1]; rfl
  have hname : f2.name = request.OutputFile := by rw [h3, hw.2.2]
  refine ⟨f2.Close fs, rfl, ?_, ?_, ?_⟩
  · simp [File.Close, hname, hcontent]
  · intro hnil
    rw [hnil] at hprint
    cases lines with
    | nil => simp [File.Close, hname, hcontent]
    | cons l ls => simp at hprint
  · intro p hp
    simp [File.Close, hname, hp]

/-- C3 at a request whose deep listing has one object, in format `csv`, and at a request
whose deep listing is empty. -/
theorem processRequest_content_witness :
    (processRequest cfg0 (fun _ => svcDeep) (fun _ => true) (fun _ => none)
        (mkRequest cfg0 "a/")).map (fun fs2 => fs2 "./target/advertiser_a") =
      some (some "\nOBJECT,b,a/1,12,2016-01-02 03:04:05.5 +0000 UTC\n".data) ∧
    (processRequest cfg0 (fun _ => svcEmpty) (fun _ => true) (fun _ => none)
        (mkRequest cfg0 "a/")).map (fun fs2 => fs2 "./target/advertiser_a") =
      some (some "\n".data) := by
  have h3 : (mkRequest cfg0 "a/").OutputFile = "./target/advertiser_a" := by decide
  constructor
  · obtain ⟨fs2, h1, h2, _⟩ := processRequest_content cfg0 (fun _ => svcDeep) (fun _ => true)
      (fun _ => none) (mkRequest cfg0 "a/")
      ["OBJECT,b,a/1,12,2016-01-02 03:04:05.5 +0000 UTC\n"] rfl rfl (by decide)
    rw [h1]
    simp only [Option.map_some']
    rw [← h3, h2]
    rfl
  · obtain ⟨fs2, h1, _, h2, _⟩ := processRequest_content cfg0 (fun _ => svcEmpty)
      (fun _ => true) (fun _ => none) (mkRequest cfg0 "a/") [] rfl rfl (by decide)
    rw [h1]
    simp only [Option.map_some']
    rw [← h3, h2 (by decide)]

/-! ## The invariant of the step relation -/

theorem pendingCount_set (l : List WorkerState) (i : Nat) (old new : WorkerState)
    (h : l[i]? = some old) :
    pendingCount (l.set i new) + pend old = pendingCount l + pend new := by
  induction l generalizing i with
  | nil => simp at h
  | cons x l ih =>
    cases i with
    | zero =>
      simp only [List.getElem?_cons_zero, Option.some.injEq] at h
      subst h
      simp only [pendingCount, List.set_cons_zero, List.map_cons, List.sum_cons]
      omega
    | succ i =>
      simp only [List.getElem?_cons_succ] at h
      have := ih i h
      simp only [pendingCount, List.set_cons_succ, List.map_cons, List.sum_cons] at this ⊢
      omega

theorem pendingCount_replicate_start (n : Nat) :
    pendingCount (List.replicate n WorkerState.start) = n := by
  induction n with
  | zero => rfl
  | succ n ih =>
    simp only [pendingCount, List.replicate_succ, List.map_cons, List.sum_cons] at ih ⊢
    rw [ih]
    simp [pend, WorkerState.start]
    omega

theorem inv_init (n : Nat) (requests : List ListAllObjectsRequest) (fs : FileSystem) :
    Inv (World.init n requests fs) := by
  refine ⟨?_, ?_, ?_⟩
  · intro ws hws
    have : ws = WorkerState.start := List.eq_of_mem_replicate hws
    subst this
    simp [WorkerState.ok, WorkerState.start]
  · simp [World.init, pendingCount_replicate_start]
  · intro h
    simp [World.init] at h

theorem inv_update (w w2 : World) (i : Nat) (ws ws2 : WorkerState) (hinv : Inv w)
    (hget : w.workers[i]? = some ws) (hworkers : w2.workers = w.workers.set i ws2)
    (hok : ws2.ok) (hwg : w2.wg + pend ws = w.wg + pend ws2)
    (hret : w2.returned = false) : Inv w2 := by
  obtain ⟨h1, h2, _⟩ := hinv
  refine ⟨?_, ?_, ?_⟩
  · intro x hx
    rw [hworkers] at hx
    rcases List.mem_or_eq_of_mem_set hx with h | h
    · exact h1 x h
    · rw [h]; exact hok
  · have hc := pendingCount_set w.workers i ws ws2 hget
    rw [hworkers]
    omega
  · intro h
    rw [hret] at h
    exact absurd h (by simp)

theorem step_alive (env : Env) (w w2 : World) (e : Event) (h : step env w e = some w2) :
    w.exited = false ∧ w.returned = false := by
  unfold step at h
  by_cases hc : (w.exited || w.returned) = true
  · rw [if_pos hc] at h
    exact absurd h (by simp)
  · simpa using hc

theorem inv_step (env : Env) (w w2 : World) (e : Event) (hinv : Inv w)
    (h : step env w e = some w2) : Inv w2 := by
  obtain ⟨hx, hr⟩ := step_alive env w w2 e h
  unfold step at h
  rw [if_neg (by simp [hx, hr])] at h
  cases e with
  | send =>
    dsimp only at h
    split at h
    · exact absurd h (by simp)
    · split at h
      · simp only [Option.some.injEq] at h
        subst h
        exact hinv
      · exact absurd h (by simp)
  | close =>
    dsimp only at h
    split at h
    · simp only [Option.some.injEq] at h
      subst h
      exact hinv
    · exact absurd h (by simp)
  | stop i =>
    dsimp only at h
    split at h
    · exact absurd h (by simp)
    · rename_i ws hget
      simp only [Option.some.injEq] at h
      subst h
      have hok := hinv.1 ws (List.getElem?_mem hget)
      exact inv_update w _ i ws _ hinv hget rfl hok (by simp [World.setWorker, pend]) hr
  | pop i =>
    dsimp only at h
    split at h
    · rename_i ws request rest hget hq
      split at h
      · rename_i hin
        simp only [Option.some.injEq] at h
        subst h
        have hok := hinv.1 ws (List.getElem?_mem hget)
        refine inv_update w _ i ws _ hinv hget rfl ?_ (by simp [World.setWorker, pend]) hr
        constructor
        · intro hp
          have := hok.1 hp
          rw [hin] at this
          exact absurd this (by simp)
        · exact hok.2
      · exact absurd h (by simp)
    · exact absurd h (by simp)
  | drained i =>
    dsimp only at h
    split at h
    · exact absurd h (by simp)
    · rename_i ws hget
      split at h
      · simp only [Option.some.injEq] at h
        subst h
        have hok := hinv.1 ws (List.getElem?_mem hget)
        exact inv_update w _ i ws _ hinv hget rfl ⟨fun _ => rfl, hok.2⟩
          (by simp [World.setWorker, pend]) hr
      · exact absurd h (by simp)
  | push i =>
    dsimp only at h
    split at h
    · exact absurd h (by simp)
    · rename_i ws hget
      split at h
      · rename_i request hin hpr
        simp only [Option.some.injEq] at h
        subst h
        have hok := hinv.1 ws (List.getElem?_mem hget)
        refine inv_update w _ i ws _ hinv hget rfl ?_ ?_ hr
        · constructor
          · intro hp
            exact absurd hp (by simp)
          · have := hok.2
            rw [hpr] at this
            simpa using this
        · simp [World.setWorker, pend, hpr]
      · exact absurd h (by simp)
  | quit i =>
    dsimp only at h
    split at h
    · exact absurd h (by simp)
    · rename_i ws hget
      split at h
      · split at h
        · simp only [Option.some.injEq] at h
          subst h
          have hok := hinv.1 ws (List.getElem?_mem hget)
          exact inv_update w _ i ws _ hinv hget rfl ⟨fun _ => rfl, hok.2⟩
            (by simp [World.setWorker, pend]) hr
        · exact absurd h (by simp)
      · exact absurd h (by simp)
  | work i =>
    dsimp only at h
    split at h
    · exact absurd h (by simp)
    · rename_i ws hget
      split at h
      · rename_i request hpr
        split at h
        · simp only [Option.some.injEq] at h
          subst h
          exact hinv
        · simp only [Option.some.injEq] at h
          subst h
          have hok := hinv.1 ws (List.getElem?_mem hget)
          refine inv_update { w with fs := _ } _ i ws _ hinv hget rfl ?_ ?_ hr
          · constructor
            · intro hp
              exact absurd hp (by simp)
            · have := hok.2
              rw [hpr] at this
              simpa using this
          · simp [World.setWorker, pend, hpr]
      · exact absurd h (by simp)
  | finish i =>
    dsimp only at h
    split at h
    · exact absurd h (by simp)
    · rename_i ws hget
      split at h
      · rename_i hc
        simp only [Option.some.injEq] at h
        subst h
        have hok := hinv.1 ws (List.getElem?_mem hget)
        refine inv_update w _ i ws _ hinv hget rfl ?_ ?_ hr
        · constructor
          · intro _
            exact hc.2
          · have := hok.2
            rw [hc.1] at this
            simp at this
            simp [this]
        · simp [World.setWorker, pend, hc.1]
      · exact absurd h (by simp)
  | wait =>
    dsimp only at h
    split at h
    · rename_i h0
      simp only [Option.some.injEq] at h
      subst h
      exact ⟨hinv.1, hinv.2.1, fun _ => h0⟩
    · exact absurd h (by simp)

theorem inv_steps (env : Env) (w w2 : World) (es : List Event) (hinv : Inv w)
    (h : steps env w es = some w2) : Inv w2 := by
  induction es generalizing w with
  | nil =>
    simp only [steps, Option.some.injEq] at h
    subst h
    exact hinv
  | cons e es ih =>
    rw [steps] at h
    cases hs : step env w e with
    | none => rw [hs] at h; exact absurd h (by simp)
    | some w1 =>
      rw [hs] at h
      exact ih w1 (inv_step env w w1 e hinv hs) h

theorem step_length (env : Env) (w w2 : World) (e : Event) (h : step env w e = some w2) :
    w2.workers.length = w.workers.length := by
  obtain ⟨hx, hr⟩ := step_alive env w w2 e h
  unfold step at h
  rw [if_neg (by simp [hx, hr])] at h
  cases e <;> dsimp only at h <;> (repeat' split at h) <;>
    first
    | exact Option.noConfusion h
    | (simp only [Option.some.injEq] at h; subst h; simp [World.setWorker])

theorem steps_length (env : Env) (w w2 : World) (es : List Event)
    (h : steps env w es = some w2) : w2.workers.length = w.workers.length := by
  induction es generalizing w with
  | nil =>
    simp only [steps, Option.some.injEq] at h
    subst h
    rfl
  | cons e es ih =>
    rw [steps] at h
    cases hs : step env w e with
    | none => rw [hs] at h; exact absurd h (by simp)
    | some w1 =>
      rw [hs] at h
      rw [ih w1 h, step_length env w w1 e hs]

theorem pend_eq_zero_of_pendingCount (l : List WorkerState) (h : pendingCount l = 0) :
    ∀ ws ∈ l, pend ws = 0 := by
  induction l with
  | nil => intro ws hws; simp at hws
  | cons x l ih =>
    simp only [pendingCount, List.map_cons, List.sum_cons] at h
    intro ws hws
    rcases List.mem_cons.mp hws with e | e
    · rw [e]; omega
    · exact ih (by simp only [pendingCount]; omega) ws e

theorem doneCalls_of_ok (ws : WorkerState) (hok : ws.ok) :
    ws.doneCalls ≤ 1 ∧
      (ws.doneCalls = 1 → ws.intake = Intake.returned ∧ ws.processing = Processing.returned) := by
  obtain ⟨h1, h2⟩ := hok
  by_cases hp : ws.processing = Processing.returned
  · rw [if_pos hp] at h2
    exact ⟨by omega, fun _ => ⟨h1 hp, hp⟩⟩
  · rw [if_neg hp] at h2
    exact ⟨by omega, fun h => by omega⟩

/-! ## Claims on the workers -/

/-- C8, counterexample: one worker, one request whose output file cannot be opened.  After
the request has reached the processing stage, `log.Fatalf` exits the process: the callback
count of the worker is 0, the intake stage has not returned, and no goroutine ever steps
again. -/
theorem fatal_skips_callback :
    (steps envClosed (World.init 1 [mkRequest cfg0 "a/"] (fun _ => none))
        [Event.send, Event.pop 0, Event.push 0, Event.work 0]).map World.view =
      some ([], [(Intake.receiving, Processing.working (mkRequest cfg0 "a/"), 0)], 1, true,
        false) ∧
    ∀ w e, steps envClosed (World.init 1 [mkRequest cfg0 "a/"] (fun _ => none))
        [Event.send, Event.pop 0, Event.push 0, Event.work 0] = some w →
      step envClosed w e = none := by
  refine ⟨rfl, ?_⟩
  intro w e h
  have hv : (steps envClosed (World.init 1 [mkRequest cfg0 "a/"] (fun _ => none))
      [Event.send, Event.pop 0, Event.push 0, Event.work 0]).map (fun w => w.exited) =
      some true := rfl
  rw [h] at hv
  simp only [Option.map_some', Option.some.injEq] at hv
  unfold step
  rw [if_pos (by simp [hv])]

/-- C8 (amended): in every state that `run` can reach, a worker has invoked its callback at
most once, and only with both its stages returned; `wg.Wait()` has returned only when every
started worker has invoked the callback once; a worker whose intake stage has returned
(queue closed or stop received) in a process that has not exited has invoked the callback,
or can return from its processing stage and then has invoked it once, or can finish the
request it is working on; and once the process has exited in `log.Fatal` nothing steps, so
no callback follows. -/
theorem worker_done_once (env : Env) (n : Nat) (requests : List ListAllObjectsRequest)
    (fs : FileSystem) (w : World) (hreach : Reachable env n requests fs w) :
    (∀ ws ∈ w.workers, ws.doneCalls ≤ 1 ∧
      (ws.doneCalls = 1 →
        ws.intake = Intake.returned ∧ ws.processing = Processing.returned)) ∧
    (w.returned = true → w.workers.length = n ∧ ∀ ws ∈ w.workers, ws.doneCalls = 1) ∧
    (∀ i ws, w.workers[i]? = some ws → ws.intake = Intake.returned → w.exited = false →
      ws.doneCalls = 1 ∨
      (∃ w2 ws2, step env w (Event.finish i) = some w2 ∧ w2.workers[i]? = some ws2 ∧
        ws2.doneCalls = 1) ∨
      (∃ w2, step env w (Event.work i) = some w2 ∧
        (w2.exited = true ∨
          ∃ ws2, w2.workers[i]? = some ws2 ∧ ws2.intake = Intake.returned ∧
            ws2.processing = Processing.receiving))) ∧
    (w.exited = true → ∀ e, step env w e = none) := by
  obtain ⟨es, hes⟩ := hreach
  have hinv := inv_steps env _ w es (inv_init n requests fs) hes
  have hlen := steps_length env _ w es hes
  have hall : w.returned = true → ∀ ws ∈ w.workers, ws.doneCalls = 1 := by
    intro hret ws hws
    have h0 := hinv.2.2 hret
    have hp : pendingCount w.workers = 0 := by
      have := hinv.2.1
      omega
    have hz := pend_eq_zero_of_pendingCount w.workers hp ws hws
    have hok := hinv.1 ws hws
    unfold pend at hz
    by_cases hpr : ws.processing = Processing.returned
    · have := hok.2
      rw [if_pos hpr] at this
      exact this
    · rw [if_neg hpr] at hz
      exact absurd hz (by simp)
  refine ⟨fun ws hws => doneCalls_of_ok ws (hinv.1 ws hws), ?_, ?_, ?_⟩
  · intro hret
    refine ⟨?_, hall hret⟩
    rw [hlen]
    simp [World.init]
  · intro i ws hget hin hx
    have hmem : ws ∈ w.workers := List.getElem?_mem hget
    have hok := hinv.1 ws hmem
    have hi : i < w.workers.length := by
      by_contra hcon
      have : w.workers[i]? = none := List.getElem?_eq_none (by omega)
      rw [this] at hget
      exact absurd hget (by simp)
    cases hret : w.returned with
    | true => exact Or.inl (hall hret ws hmem)
    | false =>
      cases hp : ws.processing with
      | returned =>
        left
        have := hok.2
        rw [if_pos hp] at this
        exact this
      | receiving =>
        right; left
        refine ⟨({ w with wg := w.wg - 1 }.setWorker i
            { ws with processing := Processing.returned, doneCalls := ws.doneCalls + 1 }),
          { ws with processing := Processing.returned, doneCalls := ws.doneCalls + 1 },
          ?_, ?_, ?_⟩
        · unfold step
          rw [if_neg (by simp [hx, hret])]
          simp only [hget]
          rw [if_pos ⟨hp, hin⟩]
        · simp [World.setWorker, List.getElem?_set_self hi]
        · have := hok.2
          rw [hp] at this
          simp at this
          simp [this]
      | working request =>
        right; right
        cases hproc : processRequest env.cfg env.s3New env.canOpen w.fs request with
        | none =>
          refine ⟨{ w with exited := true }, ?_, Or.inl rfl⟩
          unfold step
          rw [if_neg (by simp [hx, hret])]
          simp only [hget, hp, hproc]
        | some fs2 =>
          refine ⟨({ w with fs := fs2 }.setWorker i
            { ws with processing := Processing.receiving }), ?_,
            Or.inr ⟨{ ws with processing := Processing.receiving }, ?_, hin, rfl⟩⟩
          · unfold step
            rw [if_neg (by simp [hx, hret])]
            simp only [hget, hp, hproc]
          · simp [World.setWorker, List.getElem?_set_self hi]
  · intro hx e
    unfold step
    rw [if_pos (by simp [hx])]

/-- C8 (amended) on a complete run of one worker and one request: the queue is closed, the
worker processes the request, both stages return, the callback runs once and `wg.Wait()`
returns. -/
theorem worker_done_once_witness :
    ∃ w, steps envOpen (World.init 1 [mkRequest cfg0 "a/"] (fun _ => none))
        [Event.send, Event.close, Event.pop 0, Event.push 0, Event.drained 0, Event.work 0,
         Event.finish 0, Event.wait] = some w ∧
      w.returned = true ∧ w.workers.length = 1 ∧ ∀ ws ∈ w.workers, ws.doneCalls = 1 := by
  cases h : steps envOpen (World.init 1 [mkRequest cfg0 "a/"] (fun _ => none))
      [Event.send, Event.close, Event.pop 0, Event.push 0, Event.drained 0, Event.work 0,
       Event.finish 0, Event.wait] with
  | none =>
    have hs : (steps envOpen (World.init 1 [mkRequest cfg0 "a/"] (fun _ => none))
      [Event.send, Event.close, Event.pop 0, Event.push 0, Event.drained 0, Event.work 0,
       Event.finish 0, Event.wait]).isSome = true := rfl
    rw [h] at hs
    exact absurd hs (by simp)
  | some w =>
    have hv : (steps envOpen (World.init 1 [mkRequest cfg0 "a/"] (fun _ => none))
      [Event.send, Event.close, Event.pop 0, Event.push 0, Event.drained 0, Event.work 0,
       Event.finish 0, Event.wait]).map (fun w => w.returned) = some true := rfl
    rw [h] at hv
    simp only [Option.map_some', Option.some.injEq] at hv
    have hthm := worker_done_once envOpen 1 [mkRequest cfg0 "a/"] (fun _ => none) w ⟨_, h⟩
    exact ⟨w, rfl, hv, (hthm.2.1 hv).1, (hthm.2.1 hv).2⟩

/-- C9, the code at the failing input: a worker waits at `range w.RequestQueue`, `Stop` has
been called, one request is in the queue.  The stop signal cannot be received there (the
steps `quit`, `drained` and `push` are not enabled); the intake stage first receives the
request, and only then the `select` takes the stop signal: the stage returns with the
queue empty and the request never handed to the processing stage. -/
theorem intake_stop_consumes_job :
    (step envOpen worldStopped (Event.quit 0)).map World.view = none ∧
    (step envOpen worldStopped (Event.drained 0)).map World.view = none ∧
    (step envOpen worldStopped (Event.push 0)).map World.view = none ∧
    (step envOpen worldStopped (Event.pop 0)).map World.view =
      some ([], [(Intake.selecting (mkRequest cfg0 "a/"), Processing.receiving, 0)], 1, false,
        false) ∧
    (steps envOpen worldStopped [Event.pop 0, Event.quit 0]).map World.view =
      some ([], [(Intake.returned, Processing.receiving, 0)], 1, false, false) :=
  ⟨rfl, rfl, rfl, rfl, rfl⟩

/-! ## Decimal digits -/

theorem digitChar_toNat (d : Nat) (h : d < 10) : (digitChar d).toNat = 48 + d := by
  interval_cases d <;> rfl

theorem digitChar_isDig (d : Nat) (h : d < 10) : isDig (digitChar d) = true := by
  simp only [isDig, digitChar_toNat d h, Bool.and_eq_true, decide_eq_true_eq]
  omega

theorem digitVal_digitChar (d : Nat) (h : d < 10) : digitVal (digitChar d) = d := by
  simp only [digitVal, digitChar_toNat d h]
  omega

theorem parseRev_digitsRev (fuel u : Nat) (h : u < fuel) : parseRev (digitsRev fuel u) = u := by
  induction fuel generalizing u with
  | zero => omega
  | succ fuel ih =>
    rw [digitsRev]
    by_cases hu : 10 ≤ u
    · rw [if_pos hu, parseRev, ih (u / 10) (by omega),
        digitVal_digitChar (u % 10) (Nat.mod_lt _ (by omega))]
      omega
    · rw [if_neg hu, parseRev, parseRev, digitVal_digitChar u (by omega)]
      omega

theorem digitsRev_isDig (fuel u : Nat) : ∀ c ∈ digitsRev fuel u, isDig c = true := by
  induction fuel generalizing u with
  | zero => intro c hc; simp [digitsRev] at hc
  | succ fuel ih =>
    intro c hc
    rw [digitsRev] at hc
    by_cases hu : 10 ≤ u
    · rw [if_pos hu] at hc
      rcases List.mem_cons.mp hc with e | e
      · rw [e]; exact digitChar_isDig _ (Nat.mod_lt _ (by omega))
      · exact ih _ c e
    · rw [if_neg hu] at hc
      rw [List.mem_singleton.mp hc]
      exact digitChar_isDig u (by omega)

theorem digitsRev_ne_nil (fuel u : Nat) : digitsRev (fuel + 1) u ≠ [] := by
  rw [digitsRev]
  split <;> simp

theorem formatUint_isDig (u : Nat) : ∀ c ∈ formatUint u, isDig c = true := by
  intro c hc
  exact digitsRev_isDig (u + 1) u c (List.mem_reverse.mp hc)

theorem formatUint_ne_nil (u : Nat) : formatUint u ≠ [] := by
  unfold formatUint
  intro h
  exact digitsRev_ne_nil u u (List.reverse_eq_nil_iff.mp h)

theorem natOf_formatUint (u : Nat) : natOf (formatUint u) = u := by
  unfold natOf formatUint
  rw [List.reverse_reverse]
  exact parseRev_digitsRev (u + 1) u (by omega)

theorem parseRev_append_zeros (s : List Char) (k : Nat) :
    parseRev (s ++ List.replicate k '0') = parseRev s := by
  induction s with
  | nil =>
    induction k with
    | zero => rfl
    | succ k ih =>
      simp only [List.nil_append] at ih
      simp only [List.nil_append, List.replicate_succ, parseRev, ih]
      rfl
  | cons c cs ih =>
    rw [List.cons_append, parseRev, parseRev, ih]

theorem natOf_padded (u width : Nat) : natOf (padded u width) = u := by
  unfold natOf padded
  rw [List.reverse_append, List.reverse_replicate, parseRev_append_zeros]
  exact natOf_formatUint u

theorem padded_isDig (u width : Nat) : ∀ c ∈ padded u width, isDig c = true := by
  intro c hc
  unfold padded at hc
  rcases List.mem_append.mp hc with h | h
  · rw [(List.mem_replicate.mp h).2]; rfl
  · exact formatUint_isDig u c h

theorem padded_ne_nil (u width : Nat) : padded u width ≠ [] := by
  unfold padded
  intro h
  exact formatUint_ne_nil u (List.append_eq_nil.mp h).2

theorem block_sep_inj (p : Char → Bool) (a b r1 r2 : List Char) (c1 c2 : Char)
    (ha : ∀ x ∈ a, p x = true) (hb : ∀ x ∈ b, p x = true)
    (hc1 : p c1 = false) (hc2 : p c2 = false) (h : a ++ c1 :: r1 = b ++ c2 :: r2) :
    a = b ∧ c1 = c2 ∧ r1 = r2 := by
  induction a generalizing b with
  | nil =>
    cases b with
    | nil =>
      simp only [List.nil_append, List.cons.injEq] at h
      exact ⟨rfl, h.1, h.2⟩
    | cons y b =>
      simp only [List.nil_append, List.cons_append, List.cons.injEq] at h
      have := hb y (by simp)
      rw [← h.1, hc1] at this
      exact absurd this (by simp)
  | cons x a ih =>
    cases b with
    | nil =>
      simp only [List.nil_append, List.cons_append, List.cons.injEq] at h
      have := ha x (by simp)
      rw [h.1, hc2] at this
      exact absurd this (by simp)
    | cons y b =>
      simp only [List.cons_append, List.cons.injEq] at h
      obtain ⟨e1, e2, e3⟩ := ih b (fun z hz => ha z (by simp [hz]))
        (fun z hz => hb z (by simp [hz])) h.2
      exact ⟨by rw [h.1, e1], e2, e3⟩

theorem appendInt_eq (x : Int) (width : Nat) :
    appendInt x width = (if x < 0 then ['-'] else []) ++ padded x.natAbs width := rfl

theorem appendInt_sep_inj (x y : Int) (width : Nat) (c1 c2 : Char) (r1 r2 : List Char)
    (hc1 : isDig c1 = false) (hc2 : isDig c2 = false)
    (h : appendInt x width ++ c1 :: r1 = appendInt y width ++ c2 :: r2) :
    x = y ∧ c1 = c2 ∧ r1 = r2 := by
  rw [appendInt_eq, appendInt_eq] at h
  have key : ∀ a b : Nat,
      padded a width ++ c1 :: r1 = padded b width ++ c2 :: r2 → a = b ∧ c1 = c2 ∧ r1 = r2 := by
    intro a b hab
    obtain ⟨e1, e2, e3⟩ := block_sep_inj isDig _ _ r1 r2 c1 c2 (padded_isDig a width)
      (padded_isDig b width) hc1 hc2 hab
    refine ⟨?_, e2, e3⟩
    have := congrArg natOf e1
    rwa [natOf_padded, natOf_padded] at this
  have hhead : ∀ (a : Nat) (t s : List Char), '-' :: t ≠ padded a width ++ s := by
    intro a t s hcon
    cases hp : padded a width with
    | nil => exact padded_ne_nil a width hp
    | cons d ds =>
      rw [hp] at hcon
      simp only [List.cons_append, List.cons.injEq] at hcon
      have := padded_isDig a width d (by rw [hp]; simp)
      rw [← hcon.1] at this
      exact absurd this (by decide)
  by_cases hx : x < 0 <;> by_cases hy : y < 0
  · rw [if_pos hx, if_pos hy] at h
    simp only [List.singleton_append, List.cons_append, List.cons.injEq, true_and] at h
    obtain ⟨e1, e2, e3⟩ := key _ _ h
    exact ⟨by omega, e2, e3⟩
  · rw [if_pos hx, if_neg hy] at h
    simp only [List.singleton_append, List.cons_append, List.nil_append] at h
    exact absurd h (hhead _ _ _)
  · rw [if_neg hx, if_pos hy] at h
    simp only [List.singleton_append, List.cons_append, List.nil_append] at h
    exact absurd h.symm (hhead _ _ _)
  · rw [if_neg hx, if_neg hy] at h
    simp only [List.nil_append] at h
    obtain ⟨e1, e2, e3⟩ := key _ _ h
    exact ⟨by omega, e2, e3⟩

theorem formatInt_eq_appendInt (x : Int) : formatInt x = appendInt x 0 := by
  unfold formatInt appendInt
  split <;> simp

theorem formatInt_sep_inj (x y : Int) (c1 c2 : Char) (r1 r2 : List Char)
    (hc1 : isDig c1 = false) (hc2 : isDig c2 = false)
    (h : formatInt x ++ c1 :: r1 = formatInt y ++ c2 :: r2) :
    x = y ∧ c1 = c2 ∧ r1 = r2 := by
  rw [formatInt_eq_appendInt, formatInt_eq_appendInt] at h
  exact appendInt_sep_inj x y 0 c1 c2 r1 r2 hc1 hc2 h

theorem formatInt_injective (x y : Int) (h : formatInt x = formatInt y) : x = y := by
  have h2 : formatInt x ++ ',' :: [] = formatInt y ++ ',' :: [] := by rw [h]
  exact (formatInt_sep_inj x y ',' ',' [] [] (by decide) (by decide) h2).1

/-! ## Time formatting -/

theorem fixedRev_length (width u : Nat) : (fixedRev width u).length = width := by
  induction width generalizing u with
  | zero => rfl
  | succ width ih => simp [fixedRev, ih]

theorem parseRev_fixedRev (width u : Nat) : parseRev (fixedRev width u) = u % 10 ^ width := by
  induction width generalizing u with
  | zero => simp [fixedRev, parseRev, Nat.mod_one]
  | succ width ih =>
    have hp : 10 ^ (width + 1) = 10 * 10 ^ width := by ring
    rw [fixedRev, parseRev, ih, digitVal_digitChar _ (Nat.mod_lt _ (by omega)), hp, Nat.mod_mul]

theorem fixedRev_isDig (width u : Nat) : ∀ c ∈ fixedRev width u, isDig c = true := by
  induction width generalizing u with
  | zero => intro c hc; simp [fixedRev] at hc
  | succ width ih =>
    intro c hc
    rw [fixedRev] at hc
    rcases List.mem_cons.mp hc with e | e
    · rw [e]; exact digitChar_isDig _ (Nat.mod_lt _ (by omega))
    · exact ih _ c e

theorem zeros_append_dropWhile (l : List Char) :
    List.replicate (l.length - (l.dropWhile (fun c => c = '0')).length) '0' ++
      l.dropWhile (fun c => c = '0') = l := by
  induction l with
  | nil => rfl
  | cons c cs ih =>
    by_cases hc : c = '0'
    · have hle : (cs.dropWhile (fun c => c = '0')).length ≤ cs.length :=
        (List.dropWhile_sublist _).length_le
      rw [List.dropWhile_cons_of_pos (by simpa using hc), List.length_cons,
        Nat.succ_sub hle, List.replicate_succ, List.cons_append, ih, hc]
    · rw [List.dropWhile_cons_of_neg (by simpa using hc)]
      simp

theorem fixedRev_eq_of_dropWhile (n m : Nat)
    (h : (fixedRev 9 n).dropWhile (fun c => c = '0') =
      (fixedRev 9 m).dropWhile (fun c => c = '0')) : fixedRev 9 n = fixedRev 9 m := by
  rw [← zeros_append_dropWhile (fixedRev 9 n), ← zeros_append_dropWhile (fixedRev 9 m), h,
    fixedRev_length, fixedRev_length]

theorem formatNano_cases (n : Nat) :
    formatNano n = [] ∨
      ∃ k, formatNano n = '.' :: k ∧ (∀ x ∈ k, isDig x = true) ∧
        k = ((fixedRev 9 n).dropWhile (fun c => c = '0')).reverse ∧ k ≠ [] := by
  unfold formatNano
  dsimp only
  by_cases h : ((fixedRev 9 n).dropWhile (fun c => c = '0')).reverse = []
  · left
    rw [if_pos h]
  · right
    rw [if_neg h]
    refine ⟨_, rfl, ?_, rfl, h⟩
    intro x hx
    exact fixedRev_isDig 9 n x ((List.dropWhile_sublist _).subset (List.mem_reverse.mp hx))

theorem formatNano_injective (n m : Nat) (hn : n < 1000000000) (hm : m < 1000000000)
    (h : formatNano n = formatNano m) : n = m := by
  have hk : ((fixedRev 9 n).dropWhile (fun c => c = '0')).reverse =
      ((fixedRev 9 m).dropWhile (fun c => c = '0')).reverse := by
    unfold formatNano at h
    dsimp only at h
    by_cases h1 : ((fixedRev 9 n).dropWhile (fun c => c = '0')).reverse = [] <;>
      by_cases h2 : ((fixedRev 9 m).dropWhile (fun c => c = '0')).reverse = []
    · rw [h1, h2]
    · rw [if_pos h1, if_neg h2] at h
      exact absurd h (by simp)
    · rw [if_neg h1, if_pos h2] at h
      exact absurd h (by simp)
    · rw [if_neg h1, if_neg h2] at h
      exact (List.cons.inj h).2
  have hf := fixedRev_eq_of_dropWhile n m (List.reverse_injective hk)
  have hp := congrArg parseRev hf
  rw [parseRev_fixedRev, parseRev_fixedRev] at hp
  omega

theorem formatNano_sep_inj (n m : Nat) (hn : n < 1000000000) (hm : m < 1000000000)
    (c1 c2 : Char) (r1 r2 : List Char) (hc1 : isDig c1 = false) (hc2 : isDig c2 = false)
    (hd1 : c1 ≠ '.') (hd2 : c2 ≠ '.')
    (h : formatNano n ++ c1 :: r1 = formatNano m ++ c2 :: r2) :
    n = m ∧ c1 = c2 ∧ r1 = r2 := by
  rcases formatNano_cases n with e1 | ⟨k1, e1, d1, _, _⟩ <;>
    rcases formatNano_cases m with e2 | ⟨k2, e2, d2, _, _⟩
  · refine ⟨formatNano_injective n m hn hm (by rw [e1, e2]), ?_⟩
    rw [e1, e2] at h
    simpa using h
  · rw [e1, e2] at h
    simp only [List.nil_append, List.cons_append, List.cons.injEq] at h
    exact absurd h.1 hd1
  · rw [e1, e2] at h
    simp only [List.nil_append, List.cons_append, List.cons.injEq] at h
    exact absurd h.1.symm hd2
  · have h0 := h
    rw [e1, e2] at h
    simp only [List.cons_append, List.cons.injEq, true_and] at h
    obtain ⟨a1, a2, a3⟩ := block_sep_inj isDig k1 k2 r1 r2 c1 c2 d1 d2 hc1 hc2 h
    exact ⟨formatNano_injective n m hn hm (by rw [e1, e2, a1]), a2, a3⟩

theorem formatNano_head (n : Nat) (c : Char) (r : List Char) (hc : isDig c = false) :
    ∃ hd tl, formatNano n ++ c :: r = hd :: tl ∧ isDig hd = false := by
  rcases formatNano_cases n with e | ⟨k, e, _, _, _⟩
  · exact ⟨c, r, by rw [e]; rfl, hc⟩
  · exact ⟨'.', k ++ c :: r, by rw [e]; rfl, by decide⟩

theorem dateTime_sep_inj (t u : Time) (sep c1 c2 : Char) (r1 r2 : List Char)
    (hsep : isDig sep = false) (hc1 : isDig c1 = false) (hc2 : isDig c2 = false)
    (hd1 : c1 ≠ '.') (hd2 : c2 ≠ '.')
    (h : t.dateTime sep ++ c1 :: r1 = u.dateTime sep ++ c2 :: r2) :
    t = u ∧ c1 = c2 ∧ r1 = r2 := by
  unfold Time.dateTime at h
  simp only [List.append_assoc, List.cons_append] at h
  obtain ⟨ey, -, h⟩ := appendInt_sep_inj _ _ 4 _ _ _ _ (by decide) (by decide) h
  obtain ⟨emo, -, h⟩ := appendInt_sep_inj _ _ 2 _ _ _ _ (by decide) (by decide) h
  obtain ⟨ed, -, h⟩ := appendInt_sep_inj _ _ 2 _ _ _ _ hsep hsep h
  obtain ⟨eh, -, h⟩ := appendInt_sep_inj _ _ 2 _ _ _ _ (by decide) (by decide) h
  obtain ⟨emi, -, h⟩ := appendInt_sep_inj _ _ 2 _ _ _ _ (by decide) (by decide) h
  obtain ⟨hd1', tl1, q1, p1⟩ := formatNano_head t.nanosecond c1 r1 hc1
  obtain ⟨hd2', tl2, q2, p2⟩ := formatNano_head u.nanosecond c2 r2 hc2
  rw [q1, q2] at h
  obtain ⟨es, e5, e6⟩ := appendInt_sep_inj _ _ 2 _ _ _ _ p1 p2 h
  have hn : formatNano t.nanosecond ++ c1 :: r1 = formatNano u.nanosecond ++ c2 :: r2 := by
    rw [q1, q2, e5, e6]
  obtain ⟨en, ec, er⟩ := formatNano_sep_inj _ _ t.nanosecond.isLt u.nanosecond.isLt c1 c2 r1 r2
    hc1 hc2 hd1 hd2 hn
  refine ⟨?_, ec, er⟩
  cases t
  cases u
  simp only [Time.mk.injEq]
  simp only at ey emo ed eh emi es en
  exact ⟨ey, by exact_mod_cast emo, by exact_mod_cast ed, by exact_mod_cast eh,
    by exact_mod_cast emi, by exact_mod_cast es, Fin.ext en⟩

theorem Time_String_injective (t u : Time) (h : t.String = u.String) : t = u := by
  have hd := congrArg String.data h
  unfold Time.String at hd
  simp only at hd
  exact (dateTime_sep_inj t u ' ' ' ' ' ' _ _ (by decide) (by decide) (by decide) (by decide)
    (by decide) hd).1

theorem Time_MarshalJSON_sep_inj (t u : Time) (a b r1 r2 : List Char)
    (ha : t.MarshalJSON = some a) (hb : u.MarshalJSON = some b) (h : a ++ r1 = b ++ r2) :
    t = u ∧ r1 = r2 := by
  unfold Time.MarshalJSON at ha hb
  split at ha
  · exact absurd ha (by simp)
  · split at hb
    · exact absurd hb (by simp)
    · simp only [Option.some.injEq] at ha hb
      subst ha
      subst hb
      simp only [List.cons_append, List.append_assoc, List.cons.injEq, true_and] at h
      obtain ⟨e1, -, e3⟩ := dateTime_sep_inj t u 'T' 'Z' 'Z' _ _ (by decide) (by decide)
        (by decide) (by decide) (by decide) h
      simp only [List.nil_append, List.cons.injEq, true_and] at e3
      exact ⟨e1, e3⟩

/-! ## The CSV writer -/

theorem unquoted_plain (f : List Char) (h : fieldNeedsQuotes f = false) :
    ∀ c ∈ f, plainCsv c = true := by
  cases f with
  | nil => intro c hc; simp at hc
  | cons r1 rest =>
    unfold fieldNeedsQuotes at h
    dsimp only at h
    split at h
    · exact absurd h (by simp)
    · rename_i hcond
      simp only [Bool.or_eq_true, not_or, Bool.not_eq_true] at hcond
      obtain ⟨⟨_, h1⟩, h2⟩ := hcond
      intro c hc
      have a1 := List.any_eq_false.mp h1 c hc
      have a2 := List.any_eq_false.mp h2 c hc
      unfold plainCsv
      simp only [Bool.not_eq_true] at a1 a2
      rw [a1, a2]
      rfl

theorem csvQuote_sep_inj (f g r1 r2 : List Char) (c1 c2 : Char) (hc1 : c1 ≠ '"')
    (hc2 : c2 ≠ '"') (h : csvQuote f ++ '"' :: c1 :: r1 = csvQuote g ++ '"' :: c2 :: r2) :
    f = g ∧ c1 = c2 ∧ r1 = r2 := by
  induction f generalizing g with
  | nil =>
    cases g with
    | nil =>
      simp only [csvQuote, List.nil_append, List.cons.injEq, true_and] at h
      exact ⟨rfl, h.1, h.2⟩
    | cons y g =>
      rw [csvQuote] at h
      by_cases hy : y = '"'
      · rw [csvQuote, if_pos hy] at h
        simp only [List.nil_append, List.cons_append, List.cons.injEq, true_and] at h
        exact absurd h.1 hc1
      · rw [csvQuote, if_neg hy] at h
        simp only [List.nil_append, List.cons_append, List.cons.injEq] at h
        exact absurd h.1.symm hy
  | cons x f ih =>
    cases g with
    | nil =>
      rw [csvQuote.eq_1] at h
      by_cases hx : x = '"'
      · rw [csvQuote, if_pos hx] at h
        simp only [List.nil_append, List.cons_append, List.cons.injEq, true_and] at h
        exact absurd h.1.symm hc2
      · rw [csvQuote, if_neg hx] at h
        simp only [List.nil_append, List.cons_append, List.cons.injEq] at h
        exact absurd h.1 hx
    | cons y g =>
      rw [csvQuote, csvQuote] at h
      by_cases hx : x = '"' <;> by_cases hy : y = '"'
      · rw [if_pos hx, if_pos hy] at h
        simp only [List.cons_append, List.cons.injEq, true_and] at h
        obtain ⟨e1, e2, e3⟩ := ih g h
        exact ⟨by rw [hx, hy, e1], e2, e3⟩
      · rw [if_pos hx, if_neg hy] at h
        simp only [List.cons_append, List.cons.injEq] at h
        exact absurd h.1.symm hy
      · rw [if_neg hx, if_pos hy] at h
        simp only [List.cons_append, List.cons.injEq] at h
        exact absurd h.1 hx
      · rw [if_neg hx, if_neg hy] at h
        simp only [List.cons_append, List.cons.injEq] at h
        obtain ⟨e1, e2, e3⟩ := ih g h.2
        exact ⟨by rw [h.1, e1], e2, e3⟩

theorem csvField_sep_inj (f g r1 r2 : List Char) (c1 c2 : Char)
    (hc1 : c1 = ',' ∨ c1 = '\n') (hc2 : c2 = ',' ∨ c2 = '\n')
    (h : csvField f ++ c1 :: r1 = csvField g ++ c2 :: r2) :
    f = g ∧ c1 = c2 ∧ r1 = r2 := by
  have q1 : c1 ≠ '"' := by rcases hc1 with e | e <;> rw [e] <;> decide
  have q2 : c2 ≠ '"' := by rcases hc2 with e | e <;> rw [e] <;> decide
  have p1 : plainCsv c1 = false := by rcases hc1 with e | e <;> rw [e] <;> rfl
  have p2 : plainCsv c2 = false := by rcases hc2 with e | e <;> rw [e] <;> rfl
  have mixed : ∀ (a b s1 s2 : List Char) (d : Char), fieldNeedsQuotes b = false →
      d ≠ '"' → '"' :: (csvQuote a ++ ['"']) ++ s1 ≠ b ++ d :: s2 := by
    intro a b s1 s2 d hb hd hcon
    cases b with
    | nil =>
      simp only [List.cons_append, List.nil_append, List.cons.injEq] at hcon
      exact absurd hcon.1.symm hd
    | cons y b =>
      simp only [List.cons_append, List.cons.injEq] at hcon
      have := unquoted_plain (y :: b) hb y (by simp)
      rw [← hcon.1] at this
      exact absurd this (by decide)
  unfold csvField at h
  cases hf : fieldNeedsQuotes f <;> cases hg : fieldNeedsQuotes g
  · rw [hf, hg] at h
    simp only [Bool.false_eq_true, if_false] at h
    exact block_sep_inj plainCsv f g r1 r2 c1 c2 (unquoted_plain f hf) (unquoted_plain g hg)
      p1 p2 h
  · rw [hf, hg] at h
    simp only [Bool.false_eq_true, if_false, if_true] at h
    exact absurd h.symm (mixed g f _ _ c1 hf q1)
  · rw [hf, hg] at h
    simp only [Bool.false_eq_true, if_false, if_true] at h
    exact absurd h (mixed f g _ _ c2 hg q2)
  · rw [hf, hg] at h
    simp only [if_true, List.cons_append, List.append_assoc, List.singleton_append,
      List.cons.injEq, true_and] at h
    exact csvQuote_sep_inj f g r1 r2 c1 c2 q1 q2 h

theorem printCsv_injective (o1 o2 : ListObject) (h : printCsv o1 = printCsv o2) : o1 = o2 := by
  have hd := congrArg String.data h
  unfold printCsv csvWrite at hd
  simp only [List.map_cons, List.map_nil, csvFields, List.append_assoc, List.cons_append,
    List.nil_append] at hd
  obtain ⟨e1, -, hd⟩ := csvField_sep_inj _ _ _ _ _ _ (Or.inl rfl) (Or.inl rfl) hd
  obtain ⟨e2, -, hd⟩ := csvField_sep_inj _ _ _ _ _ _ (Or.inl rfl) (Or.inl rfl) hd
  obtain ⟨e3, -, hd⟩ := csvField_sep_inj _ _ _ _ _ _ (Or.inl rfl) (Or.inl rfl) hd
  obtain ⟨e4, -, hd⟩ := csvField_sep_inj _ _ _ _ _ _ (Or.inl rfl) (Or.inl rfl) hd
  obtain ⟨e5, -, -⟩ := csvField_sep_inj _ _ _ _ _ _ (Or.inr rfl) (Or.inr rfl) hd
  cases o1
  cases o2
  simp only [ListObject.mk.injEq]
  simp only at e1 e2 e3 e4 e5
  exact ⟨String.ext e1, String.ext e2, String.ext e3, formatInt_injective _ _ e4,
    Time_String_injective _ _ (String.ext e5)⟩

/-! ## The JSON encoder -/

theorem char_eq_of_toNat (a b : Char) (h : a.toNat = b.toNat) : a = b := by
  rw [← Char.ofNat_toNat a, ← Char.ofNat_toNat b, h]

theorem hexDigit_inj : ∀ n < 16, ∀ m < 16, hexDigit n = hexDigit m → n = m := by
  decide

theorem jsonEscape_shape (c : Char) :
    (jsonEscape c = [c] ∧ c ≠ '\\' ∧ c ≠ '"') ∨
    (jsonEscape c = ['\\', c] ∧ (c = '\\' ∨ c = '"')) ∨
    (jsonEscape c = ['\\', 'b'] ∧ c = '\x08') ∨
    (jsonEscape c = ['\\', 'f'] ∧ c = '\x0c') ∨
    (jsonEscape c = ['\\', 'n'] ∧ c = '\n') ∨
    (jsonEscape c = ['\\', 'r'] ∧ c = '\r') ∨
    (jsonEscape c = ['\\', 't'] ∧ c = '\t') ∨
    (jsonEscape c = ['\\', 'u', '0', '0', hexDigit (c.toNat / 16), hexDigit (c.toNat % 16)] ∧
      c.toNat < 128) ∨
    (jsonEscape c = ['\\', 'u', '2', '0', '2', hexDigit (c.toNat % 16)] ∧
      (c.toNat = 0x2028 ∨ c.toNat = 0x2029)) := by
  unfold jsonEscape
  by_cases h1 : c.toNat < 0x80
  · rw [if_pos h1]
    by_cases h2 : 0x20 ≤ c.toNat ∧ c ≠ '\\' ∧ c ≠ '"' ∧ c ≠ '<' ∧ c ≠ '>' ∧ c ≠ '&'
    · rw [if_pos h2]
      exact Or.inl ⟨rfl, h2.2.1, h2.2.2.1⟩
    · rw [if_neg h2]
      by_cases h3 : c = '\\' ∨ c = '"'
      · rw [if_pos h3]
        exact Or.inr (Or.inl ⟨rfl, h3⟩)
      · rw [if_neg h3]
        by_cases h4 : c = '\x08'
        · rw [if_pos h4]
          exact Or.inr (Or.inr (Or.inl ⟨rfl, h4⟩))
        · rw [if_neg h4]
          by_cases h5 : c = '\x0c'
          · rw [if_pos h5]
            exact Or.inr (Or.inr (Or.inr (Or.inl ⟨rfl, h5⟩)))
          · rw [if_neg h5]
            by_cases h6 : c = '\n'
            · rw [if_pos h6]
              exact Or.inr (Or.inr (Or.inr (Or.inr (Or.inl ⟨rfl, h6⟩))))
            · rw [if_neg h6]
              by_cases h7 : c = '\r'
              · rw [if_pos h7]
                exact Or.inr (Or.inr (Or.inr (Or.inr (Or.inr (Or.inl ⟨rfl, h7⟩)))))
              · rw [if_neg h7]
                by_cases h8 : c = '\t'
                · rw [if_pos h8]
                  exact Or.inr (Or.inr (Or.inr (Or.inr (Or.inr (Or.inr (Or.inl ⟨rfl, h8⟩))))))
                · rw [if_neg h8]
                  exact Or.inr (Or.inr (Or.inr (Or.inr (Or.inr (Or.inr (Or.inr
                    (Or.inl ⟨rfl, h1⟩)))))))
  · rw [if_neg h1]
    by_cases h2 : c.toNat = 0x2028 ∨ c.toNat = 0x2029
    · rw [if_pos h2]
      exact Or.inr (Or.inr (Or.inr (Or.inr (Or.inr (Or.inr (Or.inr (Or.inr ⟨rfl, h2⟩)))))))
    · rw [if_neg h2]
      refine Or.inl ⟨rfl, ?_, ?_⟩
      · intro e
        rw [e] at h1
        exact h1 (by decide)
      · intro e
        rw [e] at h1
        exact h1 (by decide)

theorem jsonEscape_inj (x y : Char) (r1 r2 : List Char)
    (h : jsonEscape x ++ r1 = jsonEscape y ++ r2) : x = y ∧ r1 = r2 := by
  rcases jsonEscape_shape x with ⟨e1, a1, a2⟩ | ⟨e1, a1⟩ | ⟨e1, a1⟩ | ⟨e1, a1⟩ | ⟨e1, a1⟩ |
      ⟨e1, a1⟩ | ⟨e1, a1⟩ | ⟨e1, a1⟩ | ⟨e1, a1⟩ <;>
    rcases jsonEscape_shape y with ⟨e2, b1, b2⟩ | ⟨e2, b1⟩ | ⟨e2, b1⟩ | ⟨e2, b1⟩ | ⟨e2, b1⟩ |
      ⟨e2, b1⟩ | ⟨e2, b1⟩ | ⟨e2, b1⟩ | ⟨e2, b1⟩ <;>
    rw [e1, e2] at h <;>
    simp only [List.cons_append, List.nil_append, List.cons.injEq] at h
  all_goals first
    | exact h
    | exact ⟨h.2.1, h.2.2⟩
    | exact absurd h.1 a1
    | exact absurd h.1.symm b1
    | (exfalso; have hch := h.2.1; revert hch; decide)
    | (exfalso; have hch := h.2.2.1; revert hch; decide)
    | (refine ⟨?_, h.2.2⟩; rw [a1, b1])
    | (exfalso; rcases a1 with e | e <;> rw [e] at h <;> (have hch := h.2.1; revert hch; decide))
    | (exfalso; rcases b1 with e | e <;> rw [e] at h <;> (have hch := h.2.1; revert hch; decide))
    | skip
  · obtain ⟨-, -, -, -, h5, h6, h7⟩ := h
    have q1 := hexDigit_inj _ (by omega) _ (by omega) h5
    have q2 := hexDigit_inj _ (Nat.mod_lt _ (by omega)) _ (Nat.mod_lt _ (by omega)) h6
    exact ⟨char_eq_of_toNat x y (by omega), h7⟩
  · obtain ⟨-, -, -, -, -, h6, h7⟩ := h
    have q2 := hexDigit_inj _ (Nat.mod_lt _ (by omega)) _ (Nat.mod_lt _ (by omega)) h6
    exact ⟨char_eq_of_toNat x y (by omega), h7⟩

theorem jsonEscape_head (y : Char) : ∃ hd tl, jsonEscape y = hd :: tl ∧ hd ≠ '"' := by
  rcases jsonEscape_shape y with ⟨e, _, a⟩ | ⟨e, _⟩ | ⟨e, _⟩ | ⟨e, _⟩ | ⟨e, _⟩ | ⟨e, _⟩ |
    ⟨e, _⟩ | ⟨e, _⟩ | ⟨e, _⟩
  · exact ⟨y, [], e, a⟩
  all_goals exact ⟨'\\', _, e, by decide⟩

theorem flatMap_valid (l : List Char) :
    (l.map GoRune.valid).flatMap jsonEscapeRune = l.flatMap jsonEscape := by
  induction l with
  | nil => rfl
  | cons c cs ih => simp only [List.map_cons, List.flatMap_cons, ih, jsonEscapeRune]

theorem jsonEscapeAll_sep_inj (s t r1 r2 : List Char)
    (h : s.flatMap jsonEscape ++ '"' :: r1 = t.flatMap jsonEscape ++ '"' :: r2) :
    s = t ∧ r1 = r2 := by
  induction s generalizing t with
  | nil =>
    cases t with
    | nil =>
      simp only [List.flatMap_nil, List.nil_append, List.cons.injEq, true_and] at h
      exact ⟨rfl, h⟩
    | cons y t =>
      obtain ⟨hd, tl, e, hne⟩ := jsonEscape_head y
      simp only [List.flatMap_nil, List.nil_append, List.flatMap_cons, e, List.cons_append,
        List.cons.injEq] at h
      exact absurd h.1.symm hne
  | cons x s ih =>
    cases t with
    | nil =>
      obtain ⟨hd, tl, e, hne⟩ := jsonEscape_head x
      simp only [List.flatMap_nil, List.nil_append, List.flatMap_cons, e, List.cons_append,
        List.cons.injEq] at h
      exact absurd h.1 hne
    | cons y t =>
      simp only [List.flatMap_cons, List.append_assoc] at h
      obtain ⟨e1, h2⟩ := jsonEscape_inj x y _ _ h
      obtain ⟨e2, e3⟩ := ih t h2
      exact ⟨by rw [e1, e2], e3⟩

theorem jsonString_sep_inj (s t : String) (r1 r2 : List Char)
    (h : jsonString s ++ r1 = jsonString t ++ r2) : s = t ∧ r1 = r2 := by
  unfold jsonString jsonEncodeString at h
  rw [flatMap_valid, flatMap_valid] at h
  simp only [List.cons_append, List.append_assoc, List.singleton_append, List.cons.injEq,
    true_and] at h
  obtain ⟨e1, e2⟩ := jsonEscapeAll_sep_inj s.data t.data r1 r2 h
  exact ⟨String.ext e1, e2⟩

theorem jsonMarshal_injective (o1 o2 : ListObject) (b : List Char)
    (h1 : jsonMarshal o1 = some b) (h2 : jsonMarshal o2 = some b) : o1 = o2 := by
  unfold jsonMarshal at h1 h2
  cases m1 : o1.LastModified.MarshalJSON with
  | none => rw [m1] at h1; exact absurd h1 (by simp)
  | some t1 =>
    cases m2 : o2.LastModified.MarshalJSON with
    | none => rw [m2] at h2; exact absurd h2 (by simp)
    | some t2 =>
      rw [m1] at h1
      rw [m2] at h2
      simp only [Option.some.injEq] at h1 h2
      have h := h1.trans h2.symm
      have h := List.append_cancel_left h
      obtain ⟨e1, h⟩ := jsonString_sep_inj _ _ _ _ h
      have h := List.append_cancel_left h
      obtain ⟨e2, h⟩ := jsonString_sep_inj _ _ _ _ h
      have h := List.append_cancel_left h
      obtain ⟨e3, h⟩ := jsonString_sep_inj _ _ _ _ h
      have h := List.append_cancel_left h
      simp only [List.cons_append, List.nil_append] at h
      obtain ⟨e4, -, h⟩ := formatInt_sep_inj _ _ _ _ _ _ (by decide) (by decide) h
      simp only [List.cons.injEq, true_and] at h
      obtain ⟨e5, -⟩ := Time_MarshalJSON_sep_inj _ _ _ _ _ _ m1 m2 h
      cases o1
      cases o2
      simp only [ListObject.mk.injEq]
      simp only at e1 e2 e3 e4 e5
      exact ⟨e1, e2, e3, e4, e5⟩

theorem jsonMarshal_ne_nil (o : ListObject) (b : List Char) (h : jsonMarshal o = some b) :
    ∃ tl, b = '\x7b' :: tl := by
  unfold jsonMarshal at h
  cases m : o.LastModified.MarshalJSON with
  | none => rw [m] at h; exact absurd h (by simp)
  | some t =>
    rw [m] at h
    simp only [Option.some.injEq] at h
    exact ⟨_, h.symm⟩

theorem jsonMarshal_isSome (o : ListObject)
    (hy : 0 ≤ o.LastModified.year ∧ o.LastModified.year < 10000) :
    ∃ b, jsonMarshal o = some b := by
  unfold jsonMarshal Time.MarshalJSON
  rw [if_neg (by omega)]
  exact ⟨_, rfl⟩

theorem printJson_injective (o1 o2 : ListObject)
    (hy : 0 ≤ o1.LastModified.year ∧ o1.LastModified.year < 10000)
    (h : printJson o1 = printJson o2) : o1 = o2 := by
  obtain ⟨b1, m1⟩ := jsonMarshal_isSome o1 hy
  obtain ⟨tl, hb⟩ := jsonMarshal_ne_nil o1 b1 m1
  unfold printJson at h
  rw [m1] at h
  cases m2 : jsonMarshal o2 with
  | none =>
    rw [m2] at h
    have hd := congrArg String.data h
    rw [hb] at hd
    simp only [List.cons_append] at hd
    have hd2 := (List.cons.inj hd).1
    exact absurd hd2 (by decide)
  | some b2 =>
    rw [m2] at h
    have hd := congrArg String.data h
    simp only at hd
    have hbb : b1 = b2 := List.append_cancel_right hd
    rw [← hbb] at m2
    exact jsonMarshal_injective o1 o2 b1 m1 m2

/-! ## Claim on the record formatters -/

theorem printJson_out_of_range (o : ListObject)
    (hy : o.LastModified.year < 0 ∨ 10000 ≤ o.LastModified.year) : printJson o = "\n" := by
  unfold printJson jsonMarshal Time.MarshalJSON
  rw [if_pos hy]

/-- C7, counterexample: in format `json`, two object entries with different keys whose
last-modified time lies in the year 10000 both render to the bare line break:
`json.Marshal` fails on the time, `printJson` logs the error and returns `"\n"`.  And for
keys that are not valid UTF-8 the string encoder of `json.Marshal` writes `\ufffd` for
every invalid byte: the distinct one-byte keys `0xff` and `0xfe` are written alike. -/
theorem json_lines_collide :
    printObject cfgJson (objEntry "k1" 12 time10000) = some "\n" ∧
    printObject cfgJson (objEntry "k2" 12 time10000) = some "\n" ∧
    (objEntry "k1" 12 time10000).File ≠ (objEntry "k2" 12 time10000).File ∧
    jsonEncodeString [GoRune.invalid 0xff] = jsonEncodeString [GoRune.invalid 0xfe] ∧
    [GoRune.invalid 0xff] ≠ [GoRune.invalid 0xfe] := by
  decide

/-- C7 (amended): for entries whose strings are valid UTF-8 (the entries of this
development).  In format `csv` the line that `printObject` renders determines the entry:
two entries rendering to the same line have the same kind, key, size and last-modified
value (and bucket).  In format `json` the same holds when the last-modified year of one of
the two lies in `[0, 9999]`; for every entry with a year outside, the line is the bare line
break. -/
theorem printObject_line_determines_entry (cfg : config) :
    (cfg.OutputFormat = "csv" → ∀ o1 o2 : ListObject,
      printObject cfg o1 = printObject cfg o2 →
        o1.Type_ = o2.Type_ ∧ o1.File = o2.File ∧ o1.Size = o2.Size ∧
          o1.LastModified = o2.LastModified ∧ o1.Bucket = o2.Bucket) ∧
    (cfg.OutputFormat = "json" → ∀ o1 o2 : ListObject,
      0 ≤ o1.LastModified.year ∧ o1.LastModified.year < 10000 →
      printObject cfg o1 = printObject cfg o2 →
        o1.Type_ = o2.Type_ ∧ o1.File = o2.File ∧ o1.Size = o2.Size ∧
          o1.LastModified = o2.LastModified ∧ o1.Bucket = o2.Bucket) ∧
    (cfg.OutputFormat = "json" → ∀ o : ListObject,
      o.LastModified.year < 0 ∨ 10000 ≤ o.LastModified.year →
        printObject cfg o = some "\n") := by
  refine ⟨?_, ?_, ?_⟩
  · intro hc o1 o2 h
    unfold printObject at h
    rw [if_pos hc, if_pos hc] at h
    have key := printCsv_injective o1 o2 (Option.some.inj h)
    rw [key]
    exact ⟨rfl, rfl, rfl, rfl, rfl⟩
  · intro hj o1 o2 hy h
    have hne : cfg.OutputFormat ≠ "csv" := by
      rw [hj]
      decide
    unfold printObject at h
    rw [if_neg hne, if_pos hj, if_neg hne, if_pos hj] at h
    have key := printJson_injective o1 o2 hy (Option.some.inj h)
    rw [key]
    exact ⟨rfl, rfl, rfl, rfl, rfl⟩
  · intro hj o hy
    have hne : cfg.OutputFormat ≠ "csv" := by
      rw [hj]
      decide
    unfold printObject
    rw [if_neg hne, if_pos hj, printJson_out_of_range o hy]

/-- C7 (amended) at two object entries that differ in size only, in both formats: their
lines differ; and at an entry of the year 10000 in format `json`: the bare line break. -/
theorem printObject_line_determines_entry_witness :
    printObject cfg0 (objEntry "a,1" 1 time2016) ≠ printObject cfg0 (objEntry "a,1" 2 time2016) ∧
    printObject cfgJson (objEntry "a,1" 1 time2016) ≠
      printObject cfgJson (objEntry "a,1" 2 time2016) ∧
    printObject cfgJson (objEntry "a,1" 1 time10000) = some "\n" := by
  refine ⟨?_, ?_, ?_⟩
  · intro h
    have := (printObject_line_determines_entry cfg0).1 rfl _ _ h
    exact absurd this.2.2.1 (by decide)
  · intro h
    have := (printObject_line_determines_entry cfgJson).2.1 rfl _ _
      ⟨by decide, by decide⟩ h
    exact absurd this.2.2.1 (by decide)
  · exact (printObject_line_determines_entry cfgJson).2.2 rfl _ (Or.inr (by decide))

end Listing
